import Mathlib

set_option maxHeartbeats 1000000

/-! Shallow embedding of tendril's stream decoders (src/stream.rs): the
    incremental UTF-8 lossy decoder `Utf8LossyDecoder`, the multi-encoding
    `LossyDecoder`, and the sink protocol, together with models of the two
    external collaborators described by the specification (the rust-utf8
    incremental scanner and the raw decoding engine).

    Byte chunks are modelled as `List Nat` (each element one byte), text
    chunks as the list of Unicode scalar values their bytes decode to, and
    the consumer sink as the trace of calls it receives. -/

/-- An observable call made by a decoder on its consumer sink: a pushed text
    chunk (as the list of its Unicode scalar values), an error notice, or the
    forwarded end-of-stream `finish` call. -/
inductive Event where
  | text (cps : List Nat)
  | error (msg : String)
  | finished
  deriving DecidableEq, Repr

/-- Number of `error` calls in a sink trace. -/
def errorCount : List Event → Nat
  | [] => 0
  | Event.error _ :: rest => errorCount rest + 1
  | _ :: rest => errorCount rest

/-- Concatenation of all pushed text chunks in a sink trace. -/
def textConcat : List Event → List Nat
  | [] => []
  | Event.text cs :: rest => cs ++ textConcat rest
  | _ :: rest => textConcat rest

/-- Number of pushed text chunks consisting of exactly one replacement
    character U+FFFD. -/
def replacementChunkCount : List Event → Nat
  | [] => 0
  | Event.text cs :: rest =>
      (if cs = [0xFFFD] then 1 else 0) + replacementChunkCount rest
  | _ :: rest => replacementChunkCount rest

/-- Number of pushed text chunks in a sink trace. -/
def textChunkCount : List Event → Nat
  | [] => 0
  | Event.text _ :: rest => textChunkCount rest + 1
  | _ :: rest => textChunkCount rest

/-- Total number of U+FFFD scalar values occurring in pushed text chunks. -/
def countFFFDText : List Event → Nat
  | [] => 0
  | Event.text cs :: rest => cs.count 0xFFFD + countFFFDText rest
  | _ :: rest => countFFFDText rest

/-- Every pushed text chunk in the trace is non-empty. -/
def noEmptyText : List Event → Bool
  | [] => true
  | Event.text cs :: rest => !cs.isEmpty && noEmptyText rest
  | _ :: rest => noEmptyText rest

/-- Every `error` call in the trace is immediately followed by a text-chunk
    push consisting of exactly one replacement character. -/
def errFollowed : List Event → Bool
  | [] => true
  | [Event.error _] => false
  | Event.error _ :: e :: rest =>
      decide (e = Event.text [0xFFFD]) && errFollowed (e :: rest)
  | _ :: rest => errFollowed rest

/-- The trace does not end with an `error` call. -/
def lastOk : List Event → Bool
  | [] => true
  | [Event.error _] => false
  | [_] => true
  | _ :: rest => lastOk rest

/-- Number of positions where an `error` call is immediately followed by a
    single-replacement-character text push. -/
def adjacentReplCount : List Event → Nat
  | Event.error _ :: Event.text cs :: rest =>
      (if cs = [0xFFFD] then 1 else 0) + adjacentReplCount (Event.text cs :: rest)
  | _ :: rest => adjacentReplCount rest
  | [] => 0

/-- Every `error` call in the trace carries exactly the given message. -/
def allErrMsg (m : String) : List Event → Bool
  | [] => true
  | Event.error m' :: rest => decide (m' = m) && allErrMsg m rest
  | _ :: rest => allErrMsg m rest

/-! ## Unicode scalar values and UTF-8 encoding -/

/-- A Unicode scalar value: in range and not a surrogate. -/
def ValidScalar (c : Nat) : Prop :=
  c < 0x110000 ∧ ¬(0xD800 ≤ c ∧ c ≤ 0xDFFF)

instance (c : Nat) : Decidable (ValidScalar c) := by
  unfold ValidScalar; infer_instance

/-- Every element of the list is a Unicode scalar value. -/
def AllValid (cps : List Nat) : Prop := ∀ c ∈ cps, ValidScalar c

instance (cps : List Nat) : Decidable (AllValid cps) := by
  unfold AllValid; infer_instance

/-- The UTF-8 encoding of one Unicode scalar value. -/
def encodeChar (c : Nat) : List Nat :=
  if c < 0x80 then [c]
  else if c < 0x800 then [0xC0 + c / 0x40, 0x80 + c % 0x40]
  else if c < 0x10000 then
    [0xE0 + c / 0x1000, 0x80 + c / 0x40 % 0x40, 0x80 + c % 0x40]
  else
    [0xF0 + c / 0x40000, 0x80 + c / 0x1000 % 0x40,
     0x80 + c / 0x40 % 0x40, 0x80 + c % 0x40]

/-- The UTF-8 encoding of a sequence of Unicode scalar values. -/
def encodeUtf8 (cps : List Nat) : List Nat := (cps.map encodeChar).flatten

/-- Sequence length that a UTF-8 lead byte announces: 1 for ASCII, 2 to 4
    for multi-byte leads, 0 for bytes that cannot begin a sequence
    (continuation bytes, overlong leads C0/C1, and F5 upward). -/
def utf8ByteWidth (b : Nat) : Nat :=
  if b < 0x80 then 1
  else if b < 0xC2 then 0
  else if b < 0xE0 then 2
  else if b < 0xF0 then 3
  else if b < 0xF5 then 4
  else 0

/-- Whether byte `b` is acceptable as the `idx`-th continuation byte (1-based)
    of a sequence with the given lead byte, following the restricted ranges
    of the first continuation after E0, ED, F0 and F4. -/
def contOk (lead : Nat) (idx : Nat) (b : Nat) : Bool :=
  if idx = 1 then
    if lead = 0xE0 then decide (0xA0 ≤ b ∧ b < 0xC0)
    else if lead = 0xED then decide (0x80 ≤ b ∧ b < 0xA0)
    else if lead = 0xF0 then decide (0x90 ≤ b ∧ b < 0xC0)
    else if lead = 0xF4 then decide (0x80 ≤ b ∧ b < 0x90)
    else decide (0x80 ≤ b ∧ b < 0xC0)
  else decide (0x80 ≤ b ∧ b < 0xC0)

/-- Scalar value denoted by one complete UTF-8 sequence (meaningful only on
    sequences whose length matches their lead byte's width). -/
def decodeScalar : List Nat → Nat
  | [b] => b
  | [b1, b2] => b1 % 0x20 * 0x40 + b2 % 0x40
  | [b1, b2, b3] => b1 % 0x10 * 0x1000 + b2 % 0x40 * 0x40 + b3 % 0x40
  | [b1, b2, b3, b4] =>
      b1 % 8 * 0x40000 + b2 % 0x40 * 0x1000 + b3 % 0x40 * 0x40 + b4 % 0x40
  | _ => 0

/-- Scalar values of a well-formed UTF-8 byte run, fuelled so that the
    recursion is structural; each step consumes at least one byte, so fuel
    equal to the length of the run suffices. -/
def decodeUtf8BytesF : Nat → List Nat → List Nat
  | 0, _ => []
  | _, [] => []
  | fuel + 1, b :: rest =>
    if utf8ByteWidth b ≤ 1 then b :: decodeUtf8BytesF fuel rest
    else
      decodeScalar (b :: rest.take (utf8ByteWidth b - 1)) ::
        decodeUtf8BytesF fuel (rest.drop (utf8ByteWidth b - 1))

/-- Scalar values of a well-formed UTF-8 byte run (the contents of a byte
    span reinterpreted as text; meaningful only on validated runs). -/
def decodeUtf8Bytes (bs : List Nat) : List Nat := decodeUtf8BytesF bs.length bs

/-! ## Model of the external incremental UTF-8 scanner (rust-utf8)

    Modelled from the spec: `decode(bytes) -> (completedFromCarry,
    validRunInInput, status)` with `status` one of Ok, Incomplete, or
    Error with the remaining input after the invalid sequence, plus the
    query for buffered incomplete-sequence state.  Error extents follow
    the maximal-subpart convention the spec's examples fix (an invalid
    lead is one error, each stray continuation byte its own error). -/

/-- Result of scanning one chunk: `ok vl` (first `vl` bytes valid, input
    exhausted at a sequence boundary), `incomplete vl seq` (first `vl` bytes
    valid, then the incomplete trailing sequence `seq`), or `error vl d`
    (first `vl` bytes valid, then an invalid sequence; scanning resumes at
    byte index `d + 1`). -/
inductive ScanResult where
  | ok (vl : Nat)
  | incomplete (vl : Nat) (seq : List Nat)
  | error (vl : Nat) (d : Nat)
  deriving DecidableEq, Repr

/-- Byte-at-a-time UTF-8 scan: `vl` is the number of bytes already validated,
    `seq` the bytes of the sequence in progress (empty at a boundary). -/
def scanFrom (vl : Nat) (seq : List Nat) : List Nat → ScanResult
  | [] => if seq.isEmpty then ScanResult.ok vl else ScanResult.incomplete vl seq
  | b :: rest =>
    match seq with
    | [] =>
      if utf8ByteWidth b = 1 then scanFrom (vl + 1) [] rest
      else if utf8ByteWidth b = 0 then ScanResult.error vl vl
      else scanFrom vl [b] rest
    | lead :: _ =>
      if contOk lead seq.length b then
        if seq.length + 1 = utf8ByteWidth lead then
          scanFrom (vl + seq.length + 1) [] rest
        else scanFrom vl (seq ++ [b]) rest
      else ScanResult.error vl (vl + seq.length - 1)

/-- Scan one chunk from a sequence boundary. -/
def scanValid (input : List Nat) : ScanResult := scanFrom 0 [] input

/-- Length of the valid run a scan reports. -/
def scanValidLen : ScanResult → Nat
  | ScanResult.ok vl => vl
  | ScanResult.incomplete vl _ => vl
  | ScanResult.error vl _ => vl

/-- Outcome of completing carried-over bytes with the next chunk: input
    exhausted while still incomplete (new carry), a scalar completed with the
    rest of the chunk left, or the carried bytes flagged invalid with the
    remaining input (nothing consumed past the failing byte). -/
inductive CarryStep where
  | incompleteAll (carry : List Nat)
  | completed (cp : Nat) (rest : List Nat)
  | failed (rest : List Nat)
  deriving DecidableEq, Repr

/-- Completing the carried-over sequence `acc` (lead byte `lead`) with the
    bytes of the next chunk, one at a time. -/
def tryCompleteAux (lead : Nat) (acc : List Nat) : List Nat → CarryStep
  | [] => CarryStep.incompleteAll acc
  | b :: rest =>
    if contOk lead acc.length b then
      if acc.length + 1 = utf8ByteWidth lead then
        CarryStep.completed (decodeScalar (acc ++ [b])) rest
      else tryCompleteAux lead (acc ++ [b]) rest
    else CarryStep.failed (b :: rest)

/-! ## Utf8LossyDecoder (src/stream.rs lines 88-135)

    The decoder state is the scanner's carry-over (incomplete-sequence)
    bytes; `process` returns the sink trace of one call plus the new state. -/

/-- Sink events for a validated byte run: pushed as one zero-copy text chunk
    when non-empty (`if !s.is_empty()` in the source). -/
def textEvent (bs : List Nat) : List Event :=
  if bs.isEmpty then [] else [Event.text (decodeUtf8Bytes bs)]

/-- The `process` loop of `Utf8LossyDecoder` from a state with no carried
    bytes, fuelled so that the recursion is structural: push the valid run,
    and at each scanner error emit `error("invalid byte sequence")`, push one
    replacement character, and resume after the invalid sequence within the
    same call.  Each error consumes at least one byte, so fuel exceeding the
    input length suffices. -/
def runNoCarryF : Nat → List Nat → List Event × List Nat
  | 0, _ => ([], [])
  | fuel + 1, input =>
    match scanValid input with
    | ScanResult.ok vl => (textEvent (input.take vl), [])
    | ScanResult.incomplete vl seq => (textEvent (input.take vl), seq)
    | ScanResult.error vl d =>
      let r := runNoCarryF fuel (input.drop (d + 1))
      (textEvent (input.take vl) ++
         (Event.error "invalid byte sequence" :: Event.text [0xFFFD] :: r.1),
       r.2)

/-- The `process` loop of `Utf8LossyDecoder` from a state with no carried
    bytes. -/
def runNoCarry (input : List Nat) : List Event × List Nat :=
  runNoCarryF (input.length + 1) input

/-- `Utf8LossyDecoder::process`: first let the scanner try to complete the
    carried bytes (pushing the completed scalar, or reporting them invalid),
    then scan the remainder of the chunk. -/
def Utf8LossyDecoder.process (carry : List Nat) (chunk : List Nat) :
    List Event × List Nat :=
  match carry with
  | [] => runNoCarry chunk
  | lead :: _ =>
    match tryCompleteAux lead carry chunk with
    | CarryStep.incompleteAll c => ([], c)
    | CarryStep.completed cp rest =>
      let r := runNoCarry rest
      (Event.text [cp] :: r.1, r.2)
    | CarryStep.failed rest =>
      let r := runNoCarry rest
      (Event.error "invalid byte sequence" :: Event.text [0xFFFD] :: r.1, r.2)

/-- `Utf8LossyDecoder::error`: pure pass-through to the consumer sink. -/
def Utf8LossyDecoder.errorEv (desc : String) : List Event := [Event.error desc]

/-- `Utf8LossyDecoder::finish`: report a pending incomplete sequence, then
    forward `finish` to the consumer sink (the `finished` event). -/
def Utf8LossyDecoder.finish (carry : List Nat) : List Event :=
  if carry.isEmpty then [Event.finished]
  else
    [Event.error "incomplete byte sequence at end of stream",
     Event.text [0xFFFD], Event.finished]

/-- Feed a list of byte chunks through `Utf8LossyDecoder::process` starting
    from the given carry state; returns the sink trace and final state. -/
def utf8RunState (carry : List Nat) : List (List Nat) → List Event × List Nat
  | [] => ([], carry)
  | c :: cs =>
    let r := Utf8LossyDecoder.process carry c
    let rest := utf8RunState r.2 cs
    (r.1 ++ rest.1, rest.2)

/-- A whole run of the UTF-8 decoder: a fresh decoder, one `process` call per
    chunk, then `finish`. -/
def runUtf8 (chunks : List (List Nat)) : List Event :=
  let r := utf8RunState [] chunks
  r.1 ++ Utf8LossyDecoder.finish r.2

/-! ## Model of the external raw decoding engine (spec section 6)

    Modelled from the spec: `feed(bytes, outputBuffer) -> (bytesConsumed,
    optionalError{cause, consumedUpTo})`; `finalize(outputBuffer) ->
    optionalError{cause}`; state persists across calls. -/

/-- Modelled from the spec: a raw decoding engine for one legacy encoding,
    with state type `σ`.  `rawFeed` returns the new state, the scalar values
    appended to the output buffer, and optionally an error with its cause and
    the byte offset `upto` consumed (the remainder must be re-fed);
    `rawFinish` returns trailing output and an optional trailing error. -/
structure RawDecoderModel (σ : Type) where
  rawFeed : σ → List Nat → σ × List Nat × Option (String × Nat)
  rawFinish : σ → List Nat × Option String

/-- The engine respects its contract: an error consumes at least one byte and
    no more than the input it was fed. -/
def WFEngine {σ : Type} (d : RawDecoderModel σ) : Prop :=
  ∀ st t st' o cause k,
    d.rawFeed st t = (st', o, some (cause, k)) → 1 ≤ k ∧ k ≤ t.length

/-- The engine never emits the replacement character itself. -/
def NoFFFD {σ : Type} (d : RawDecoderModel σ) : Prop :=
  (∀ st t, ((d.rawFeed st t).2.1).count 0xFFFD = 0) ∧
  (∀ st, ((d.rawFinish st).1).count 0xFFFD = 0)

/-! ## LossyDecoder (src/stream.rs lines 142-228) -/

/-- The feed loop of `LossyDecoder::process` on the non-UTF-8 path: feed the
    remaining input, and on an engine error append one replacement character
    to the accumulation buffer, record the cause, drop the consumed bytes and
    repeat.  The fuel argument bounds the iteration count; under the engine
    contract `t.length + 1` fuel always suffices. -/
def legacyFeedAux {σ : Type} (d : RawDecoderModel σ) :
    Nat → σ → List Nat → List Nat → List String → σ × List Nat × List String
  | 0, st, _, out, errs => (st, out, errs)
  | fuel + 1, st, t, out, errs =>
    match d.rawFeed st t with
    | (st', o, some (cause, k)) =>
        legacyFeedAux d fuel st' (t.drop k) (out ++ o ++ [0xFFFD])
          (errs ++ [cause])
    | (st', o, none) => (st', out ++ o, errs)

/-- `LossyDecoder::process` on the non-UTF-8 path: run the feed loop, emitting
    the recorded error causes in order, then push the accumulation buffer as
    one text chunk if it is non-empty. -/
def legacyProcess {σ : Type} (d : RawDecoderModel σ) (st : σ) (t : List Nat) :
    σ × List Event :=
  let r := legacyFeedAux d (t.length + 1) st t [] []
  (r.1, r.2.2.map Event.error ++
    (if (r.2.1).isEmpty then [] else [Event.text r.2.1]))

/-- `LossyDecoder::finish` on the non-UTF-8 path: finalize the engine,
    appending one replacement character on a trailing error, push the buffer
    if non-empty, then forward `finish`. -/
def legacyFinish {σ : Type} (d : RawDecoderModel σ) (st : σ) : List Event :=
  let r := d.rawFinish st
  let out := match r.2 with | some _ => r.1 ++ [0xFFFD] | none => r.1
  (match r.2 with | some cause => [Event.error cause] | none => []) ++
    (if out.isEmpty then [] else [Event.text out]) ++ [Event.finished]

/-- An encoding as handed to `LossyDecoder::new`: its name and a raw decoder
    instance (modelled from the spec's external-engine interface). -/
structure EncodingModel (σ : Type) where
  name : String
  rawDecoder : RawDecoderModel σ
  initState : σ

/-- The tagged state of `LossyDecoder`: the UTF-8 fast path holding a
    `Utf8LossyDecoder`, or a raw engine plus its state. -/
inductive LossyInner (σ : Type) where
  | utf8 (carry : List Nat)
  | other (d : RawDecoderModel σ) (st : σ)

/-- `LossyDecoder::new`: dispatch on the encoding name. -/
def LossyDecoder.new {σ : Type} (enc : EncodingModel σ) : LossyInner σ :=
  if enc.name = "utf-8" then LossyInner.utf8 []
  else LossyInner.other enc.rawDecoder enc.initState

/-- `LossyDecoder::process`: delegate to the UTF-8 fast path, or run the
    legacy feed loop. -/
def LossyDecoder.process {σ : Type} :
    LossyInner σ → List Nat → List Event × LossyInner σ
  | LossyInner.utf8 carry, t =>
    let r := Utf8LossyDecoder.process carry t
    (r.1, LossyInner.utf8 r.2)
  | LossyInner.other d st, t =>
    let r := legacyProcess d st t
    (r.2, LossyInner.other d r.1)

/-- `LossyDecoder::error`: pass-through on both variants. -/
def LossyDecoder.errorEv {σ : Type} (_ : LossyInner σ) (desc : String) :
    List Event := [Event.error desc]

/-- `LossyDecoder::finish`: delegate to the UTF-8 fast path, or finalize the
    engine. -/
def LossyDecoder.finish {σ : Type} : LossyInner σ → List Event
  | LossyInner.utf8 carry => Utf8LossyDecoder.finish carry
  | LossyInner.other d st => legacyFinish d st

/-- One call a caller can make on a decoder before finishing. -/
inductive SinkCall where
  | process (chunk : List Nat)
  | error (msg : String)

/-- Drive a `LossyDecoder` through a sequence of calls. -/
def lossyRunState {σ : Type} (state : LossyInner σ) :
    List SinkCall → List Event × LossyInner σ
  | [] => ([], state)
  | SinkCall.process c :: rest =>
    let r := LossyDecoder.process state c
    let rs := lossyRunState r.2 rest
    (r.1 ++ rs.1, rs.2)
  | SinkCall.error m :: rest =>
    let rs := lossyRunState state rest
    (LossyDecoder.errorEv state m ++ rs.1, rs.2)

/-- A whole run of `LossyDecoder`: construct from an encoding, make the given
    calls, then `finish`. -/
def runLossyCalls {σ : Type} (enc : EncodingModel σ) (calls : List SinkCall) :
    List Event :=
  let r := lossyRunState (LossyDecoder.new enc) calls
  r.1 ++ LossyDecoder.finish r.2

/-- Drive a `Utf8LossyDecoder` through a sequence of calls. -/
def utf8CallsState (carry : List Nat) :
    List SinkCall → List Event × List Nat
  | [] => ([], carry)
  | SinkCall.process c :: rest =>
    let r := Utf8LossyDecoder.process carry c
    let rs := utf8CallsState r.2 rest
    (r.1 ++ rs.1, rs.2)
  | SinkCall.error m :: rest =>
    let rs := utf8CallsState carry rest
    (Utf8LossyDecoder.errorEv m ++ rs.1, rs.2)

/-- A whole run of `Utf8LossyDecoder` over a sequence of calls. -/
def runUtf8Calls (calls : List SinkCall) : List Event :=
  let r := utf8CallsState [] calls
  r.1 ++ Utf8LossyDecoder.finish r.2

/-- A whole run of the non-UTF-8 path over a list of chunks: one `process`
    call per chunk, then `finish`. -/
def runLegacy {σ : Type} (d : RawDecoderModel σ) (st : σ) :
    List (List Nat) → List Event
  | [] => legacyFinish d st
  | c :: cs =>
    let r := legacyProcess d st c
    r.2 ++ runLegacy d r.1 cs

/-- A concrete engine instance for witnesses: an ASCII-like single-byte
    decoder that outputs bytes below 0x80 unchanged and reports an error
    consuming up to and including the first byte at 0x80 or above. -/
def asciiEngine : RawDecoderModel Unit where
  rawFeed := fun _ t =>
    let good := t.takeWhile (fun b => decide (b < 0x80))
    if good.length = t.length then ((), good, none)
    else ((), good, some ("invalid ascii byte", good.length + 1))
  rawFinish := fun _ => ([], none)

/-- The decoder state that processing a proper front part of well-formed
    input leaves behind: either nothing carried, or a proper nonempty front
    part of the encoding of the next scalar still to be produced. -/
def GoodCarry (cps : List Nat) (carry : List Nat) : Prop :=
  carry = [] ∨
    ∃ c cs, cps = c :: cs ∧ 0 < carry.length ∧
      carry.length < (encodeChar c).length ∧
      carry = (encodeChar c).take carry.length

/-- Every pushed text chunk is the final event of the trace. -/
def textLast : List Event → Bool
  | [] => true
  | [Event.text _] => true
  | Event.text _ :: _ :: _ => false
  | _ :: rest => textLast rest

/-- Modelled from the spec: the iteration contract of the non-UTF-8 feed
    loop.  `LegacyRun d st t out causes st2` holds when repeatedly feeding
    the remaining input to the engine from state `st`, appending one
    replacement character at each reported error (which consumed at least one
    byte, up to and including the bad sequence) and re-feeding exactly the
    dropped remainder, terminates with no error, produces buffer `out`,
    reports `causes` in order, and ends in engine state `st2`. -/
inductive LegacyRun {σ : Type} (d : RawDecoderModel σ) :
    σ → List Nat → List Nat → List String → σ → Prop where
  | done {st st' : σ} {t o : List Nat} :
      d.rawFeed st t = (st', o, none) → LegacyRun d st t o [] st'
  | step {st st' st'' : σ} {t o out' : List Nat} {cause : String} {k : Nat}
      {causes : List String} :
      d.rawFeed st t = (st', o, some (cause, k)) → 1 ≤ k →
      LegacyRun d st' (t.drop k) out' causes st'' →
      LegacyRun d st t (o ++ 0xFFFD :: out') (cause :: causes) st''

/-! ## Basic facts about sink traces -/

theorem errorCount_append (a b : List Event) :
    errorCount (a ++ b) = errorCount a + errorCount b := by
  induction a with
  | nil => simp [errorCount]
  | cons e rest ih => cases e <;> simp [errorCount, ih] <;> omega

theorem textConcat_append (a b : List Event) :
    textConcat (a ++ b) = textConcat a ++ textConcat b := by
  induction a with
  | nil => simp [textConcat]
  | cons e rest ih => cases e <;> simp [textConcat, ih]

theorem countFFFDText_append (a b : List Event) :
    countFFFDText (a ++ b) = countFFFDText a + countFFFDText b := by
  induction a with
  | nil => simp [countFFFDText]
  | cons e rest ih => cases e <;> simp [countFFFDText, ih] <;> omega

theorem noEmptyText_append (a b : List Event) :
    noEmptyText (a ++ b) = (noEmptyText a && noEmptyText b) := by
  induction a with
  | nil => simp [noEmptyText]
  | cons e rest ih =>
    cases e <;> simp [noEmptyText, ih, Bool.and_assoc]

theorem errorCount_map_error (l : List String) :
    errorCount (l.map Event.error) = l.length := by
  induction l with
  | nil => simp [errorCount]
  | cons m rest ih => simp [errorCount, ih]

theorem countFFFDText_map_error (l : List String) :
    countFFFDText (l.map Event.error) = 0 := by
  induction l with
  | nil => simp [countFFFDText]
  | cons m rest ih => simp [countFFFDText, ih]

theorem textChunkCount_map_error (l : List String) :
    textChunkCount (l.map Event.error) = 0 := by
  induction l with
  | nil => simp [textChunkCount]
  | cons m rest ih => simp [textChunkCount, ih]

theorem errFollowed_cons_text (cs : List Nat) (l : List Event) :
    errFollowed (Event.text cs :: l) = errFollowed l := by
  cases l <;> simp [errFollowed]

theorem errFollowed_cons_finished (l : List Event) :
    errFollowed (Event.finished :: l) = errFollowed l := by
  cases l <;> simp [errFollowed]

theorem errFollowed_cons_error (m : String) (e : Event) (l : List Event) :
    errFollowed (Event.error m :: e :: l) =
      (decide (e = Event.text [0xFFFD]) && errFollowed (e :: l)) := by
  simp [errFollowed]

theorem lastOk_cons (e : Event) (l : List Event) (h : l ≠ []) :
    lastOk (e :: l) = lastOk l := by
  cases l with
  | nil => exact absurd rfl h
  | cons f fs => cases e <;> simp [lastOk]

theorem errFollowed_append (a b : List Event) (ha : errFollowed a = true)
    (hlast : lastOk a = true) (hb : errFollowed b = true) :
    errFollowed (a ++ b) = true := by
  induction a with
  | nil => simpa using hb
  | cons e rest ih =>
    cases e with
    | text cs =>
      rw [List.cons_append, errFollowed_cons_text]
      rw [errFollowed_cons_text] at ha
      by_cases hr : rest = []
      · subst hr; simpa using hb
      · rw [lastOk_cons _ _ hr] at hlast
        exact ih ha hlast
    | finished =>
      rw [List.cons_append, errFollowed_cons_finished]
      rw [errFollowed_cons_finished] at ha
      by_cases hr : rest = []
      · subst hr; simpa using hb
      · rw [lastOk_cons _ _ hr] at hlast
        exact ih ha hlast
    | error m =>
      cases rest with
      | nil => simp [lastOk] at hlast
      | cons f fs =>
        rw [errFollowed_cons_error] at ha
        rw [List.cons_append, List.cons_append, errFollowed_cons_error]
        simp only [Bool.and_eq_true, decide_eq_true_eq] at ha ⊢
        refine ⟨ha.1, ?_⟩
        rw [← List.cons_append]
        rw [lastOk_cons _ _ (by simp)] at hlast
        exact ih ha.2 hlast

theorem lastOk_append (a b : List Event) (hb : lastOk b = true)
    (hab : b = [] → lastOk a = true) : lastOk (a ++ b) = true := by
  cases b with
  | nil => simpa using hab rfl
  | cons f fs =>
    clear hab
    induction a with
    | nil => simpa using hb
    | cons e rest ih =>
      rw [List.cons_append, lastOk_cons _ _ (by simp)]
      exact ih

theorem adjacentReplCount_eq_errorCount (l : List Event)
    (h : errFollowed l = true) : adjacentReplCount l = errorCount l := by
  induction l with
  | nil => simp [adjacentReplCount, errorCount]
  | cons e rest ih =>
    cases e with
    | text cs =>
      rw [errFollowed_cons_text] at h
      simpa [adjacentReplCount, errorCount] using ih h
    | finished =>
      rw [errFollowed_cons_finished] at h
      simpa [adjacentReplCount, errorCount] using ih h
    | error m =>
      cases rest with
      | nil => simp [errFollowed] at h
      | cons f fs =>
        rw [errFollowed_cons_error] at h
        simp only [Bool.and_eq_true, decide_eq_true_eq] at h
        obtain ⟨rfl, h2⟩ := h
        have hih := ih h2
        simp [adjacentReplCount, errorCount] at hih ⊢
        omega

theorem allErrMsg_append (m : String) (a b : List Event) :
    allErrMsg m (a ++ b) = (allErrMsg m a && allErrMsg m b) := by
  induction a with
  | nil => simp [allErrMsg]
  | cons e rest ih => cases e <;> simp [allErrMsg, ih, Bool.and_assoc]

/-! ## Arithmetic facts about the UTF-8 encoding -/

theorem encodeChar_one {c : Nat} (h : c < 0x80) : encodeChar c = [c] := by
  unfold encodeChar; rw [if_pos h]

theorem encodeChar_two {c : Nat} (h1 : 0x80 ≤ c) (h2 : c < 0x800) :
    encodeChar c = [0xC0 + c / 0x40, 0x80 + c % 0x40] := by
  unfold encodeChar; rw [if_neg (by omega), if_pos h2]

theorem encodeChar_three {c : Nat} (h1 : 0x800 ≤ c) (h2 : c < 0x10000) :
    encodeChar c = [0xE0 + c / 0x1000, 0x80 + c / 0x40 % 0x40, 0x80 + c % 0x40] := by
  unfold encodeChar; rw [if_neg (by omega), if_neg (by omega), if_pos h2]

theorem encodeChar_four {c : Nat} (h1 : 0x10000 ≤ c) :
    encodeChar c = [0xF0 + c / 0x40000, 0x80 + c / 0x1000 % 0x40,
      0x80 + c / 0x40 % 0x40, 0x80 + c % 0x40] := by
  unfold encodeChar
  rw [if_neg (by omega), if_neg (by omega), if_neg (by omega)]

theorem encodeChar_ne_nil (c : Nat) : encodeChar c ≠ [] := by
  unfold encodeChar
  split_ifs <;> simp

theorem encodeUtf8_nil : encodeUtf8 [] = [] := rfl

theorem encodeUtf8_cons (c : Nat) (cs : List Nat) :
    encodeUtf8 (c :: cs) = encodeChar c ++ encodeUtf8 cs := by
  simp [encodeUtf8]

theorem encodeUtf8_append (a b : List Nat) :
    encodeUtf8 (a ++ b) = encodeUtf8 a ++ encodeUtf8 b := by
  simp [encodeUtf8]

theorem encodeUtf8_eq_nil {cps : List Nat} (h : encodeUtf8 cps = []) :
    cps = [] := by
  cases cps with
  | nil => rfl
  | cons c cs =>
    rw [encodeUtf8_cons] at h
    exact absurd (List.append_eq_nil.mp h).1 (encodeChar_ne_nil c)

theorem width_one {b : Nat} (h : b < 0x80) : utf8ByteWidth b = 1 := by
  unfold utf8ByteWidth; rw [if_pos h]

theorem width_two {b : Nat} (h1 : 0xC2 ≤ b) (h2 : b < 0xE0) :
    utf8ByteWidth b = 2 := by
  unfold utf8ByteWidth; rw [if_neg (by omega), if_neg (by omega), if_pos h2]

theorem width_three {b : Nat} (h1 : 0xE0 ≤ b) (h2 : b < 0xF0) :
    utf8ByteWidth b = 3 := by
  unfold utf8ByteWidth
  rw [if_neg (by omega), if_neg (by omega), if_neg (by omega), if_pos h2]

theorem width_four {b : Nat} (h1 : 0xF0 ≤ b) (h2 : b < 0xF5) :
    utf8ByteWidth b = 4 := by
  unfold utf8ByteWidth
  rw [if_neg (by omega), if_neg (by omega), if_neg (by omega),
      if_neg (by omega), if_pos h2]

theorem contOk_later {lead idx b : Nat} (h : idx ≠ 1) :
    contOk lead idx b = decide (0x80 ≤ b ∧ b < 0xC0) := by
  unfold contOk; rw [if_neg h]

theorem decodeScalar_two {c : Nat} (h1 : 0x80 ≤ c) (h2 : c < 0x800) :
    decodeScalar [0xC0 + c / 0x40, 0x80 + c % 0x40] = c := by
  simp only [decodeScalar]; omega

theorem decodeScalar_three {c : Nat} (h1 : 0x800 ≤ c) (h2 : c < 0x10000) :
    decodeScalar [0xE0 + c / 0x1000, 0x80 + c / 0x40 % 0x40, 0x80 + c % 0x40] = c := by
  simp only [decodeScalar]; omega

theorem decodeScalar_four {c : Nat} (h1 : 0x10000 ≤ c) (h2 : c < 0x110000) :
    decodeScalar [0xF0 + c / 0x40000, 0x80 + c / 0x1000 % 0x40,
      0x80 + c / 0x40 % 0x40, 0x80 + c % 0x40] = c := by
  simp only [decodeScalar]; omega

/-- First-continuation check passes on the second byte of a valid 3-byte
    encoding (covering the E0 and ED restricted ranges). -/
theorem contOk_three_first {c : Nat} (hv : ValidScalar c) (h1 : 0x800 ≤ c)
    (h2 : c < 0x10000) :
    contOk (0xE0 + c / 0x1000) 1 (0x80 + c / 0x40 % 0x40) = true := by
  obtain ⟨-, hs⟩ := hv
  unfold contOk
  rw [if_pos rfl]
  by_cases hE0 : 0xE0 + c / 0x1000 = 0xE0
  · rw [if_pos hE0]; simp only [decide_eq_true_eq]; omega
  · rw [if_neg hE0]
    by_cases hED : 0xE0 + c / 0x1000 = 0xED
    · rw [if_pos hED]; simp only [decide_eq_true_eq]; omega
    · rw [if_neg hED, if_neg (by omega), if_neg (by omega)]
      simp only [decide_eq_true_eq]; omega

/-- First-continuation check passes on the second byte of a valid 4-byte
    encoding (covering the F0 and F4 restricted ranges). -/
theorem contOk_four_first {c : Nat} (h1 : 0x10000 ≤ c) (h2 : c < 0x110000) :
    contOk (0xF0 + c / 0x40000) 1 (0x80 + c / 0x1000 % 0x40) = true := by
  unfold contOk
  rw [if_pos rfl]
  rw [if_neg (by omega), if_neg (by omega)]
  by_cases hF0 : 0xF0 + c / 0x40000 = 0xF0
  · rw [if_pos hF0]; simp only [decide_eq_true_eq]; omega
  · rw [if_neg hF0]
    by_cases hF4 : 0xF0 + c / 0x40000 = 0xF4
    · rw [if_pos hF4]; simp only [decide_eq_true_eq]; omega
    · rw [if_neg hF4]; simp only [decide_eq_true_eq]; omega

/-- First-continuation check passes on the second byte of a valid 2-byte
    encoding. -/
theorem contOk_two_first {c : Nat} (h1 : 0x80 ≤ c) (h2 : c < 0x800) :
    contOk (0xC0 + c / 0x40) 1 (0x80 + c % 0x40) = true := by
  unfold contOk
  rw [if_pos rfl, if_neg (by omega), if_neg (by omega), if_neg (by omega),
      if_neg (by omega)]
  simp only [decide_eq_true_eq]; omega

theorem contOk_later_true {lead idx b : Nat} (h : idx ≠ 1) (h1 : 0x80 ≤ b)
    (h2 : b < 0xC0) : contOk lead idx b = true := by
  rw [contOk_later h]
  simp only [decide_eq_true_eq]
  omega

/-! ## Facts about `decodeUtf8Bytes` -/

theorem decodeUtf8BytesF_congr :
    ∀ f1 : Nat, ∀ bs : List Nat, ∀ f2 : Nat, bs.length ≤ f1 → bs.length ≤ f2 →
      decodeUtf8BytesF f1 bs = decodeUtf8BytesF f2 bs := by
  intro f1
  induction f1 with
  | zero =>
    intro bs f2 h1 _
    have : bs = [] := List.length_eq_zero.mp (by omega)
    subst this
    cases f2 <;> simp [decodeUtf8BytesF]
  | succ f ih =>
    intro bs f2 h1 h2
    cases bs with
    | nil => cases f2 <;> simp [decodeUtf8BytesF]
    | cons b rest =>
      cases f2 with
      | zero => simp at h2
      | succ f2' =>
        simp only [decodeUtf8BytesF]
        simp only [List.length_cons] at h1 h2
        by_cases hw : utf8ByteWidth b ≤ 1
        · rw [if_pos hw, if_pos hw, ih rest f2' (by omega) (by omega)]
        · rw [if_neg hw, if_neg hw,
            ih (rest.drop (utf8ByteWidth b - 1)) f2'
              (by simp [List.length_drop]; omega)
              (by simp [List.length_drop]; omega)]

theorem decodeUtf8Bytes_nil : decodeUtf8Bytes [] = [] := rfl

theorem decodeUtf8Bytes_cons_ascii {b : Nat} (rest : List Nat)
    (h : utf8ByteWidth b ≤ 1) :
    decodeUtf8Bytes (b :: rest) = b :: decodeUtf8Bytes rest := by
  unfold decodeUtf8Bytes
  simp only [List.length_cons, decodeUtf8BytesF, if_pos h]

theorem decodeUtf8Bytes_cons_multi {b : Nat} (rest : List Nat)
    (h : ¬ utf8ByteWidth b ≤ 1) :
    decodeUtf8Bytes (b :: rest) =
      decodeScalar (b :: rest.take (utf8ByteWidth b - 1)) ::
        decodeUtf8Bytes (rest.drop (utf8ByteWidth b - 1)) := by
  unfold decodeUtf8Bytes
  simp only [List.length_cons, decodeUtf8BytesF, if_neg h]
  rw [decodeUtf8BytesF_congr rest.length (rest.drop (utf8ByteWidth b - 1))
        (rest.drop (utf8ByteWidth b - 1)).length
        (by simp only [List.length_drop]; omega) (by omega)]

theorem decodeUtf8Bytes_ne_nil {bs : List Nat} (h : bs ≠ []) :
    decodeUtf8Bytes bs ≠ [] := by
  cases bs with
  | nil => exact absurd rfl h
  | cons b rest =>
    by_cases hw : utf8ByteWidth b ≤ 1
    · rw [decodeUtf8Bytes_cons_ascii rest hw]; simp
    · rw [decodeUtf8Bytes_cons_multi rest hw]; simp

/-- Decoding inverts encoding, one scalar at a time. -/
theorem decodeUtf8Bytes_enc_cons {c : Nat} (hv : ValidScalar c)
    (rest : List Nat) :
    decodeUtf8Bytes (encodeChar c ++ rest) = c :: decodeUtf8Bytes rest := by
  obtain ⟨hr, hs⟩ := hv
  by_cases h1 : c < 0x80
  · rw [encodeChar_one h1, List.cons_append, List.nil_append,
      decodeUtf8Bytes_cons_ascii _ (by rw [width_one h1]), ]
  · by_cases h2 : c < 0x800
    · rw [encodeChar_two (by omega) h2]
      have hw : utf8ByteWidth (0xC0 + c / 0x40) = 2 :=
        width_two (by omega) (by omega)
      rw [List.cons_append, List.cons_append, List.nil_append,
        decodeUtf8Bytes_cons_multi _ (by omega), hw]
      simp only [List.take, List.drop]
      rw [decodeScalar_two (by omega) h2]
    · by_cases h3 : c < 0x10000
      · rw [encodeChar_three (by omega) h3]
        have hw : utf8ByteWidth (0xE0 + c / 0x1000) = 3 :=
          width_three (by omega) (by omega)
        rw [List.cons_append, List.cons_append, List.cons_append,
          List.nil_append, decodeUtf8Bytes_cons_multi _ (by omega), hw]
        simp only [List.take, List.drop]
        rw [decodeScalar_three (by omega) h3]
      · rw [encodeChar_four (by omega)]
        have hw : utf8ByteWidth (0xF0 + c / 0x40000) = 4 :=
          width_four (by omega) (by omega)
        rw [List.cons_append, List.cons_append, List.cons_append,
          List.cons_append, List.nil_append,
          decodeUtf8Bytes_cons_multi _ (by omega), hw]
        simp only [List.take, List.drop]
        rw [decodeScalar_four (by omega) (by omega)]

/-- Decoding inverts encoding on whole scalar sequences. -/
theorem decodeUtf8Bytes_encode {cps : List Nat} (hv : AllValid cps) :
    decodeUtf8Bytes (encodeUtf8 cps) = cps := by
  induction cps with
  | nil => rfl
  | cons c cs ih =>
    rw [encodeUtf8_cons, decodeUtf8Bytes_enc_cons (hv c (by simp)),
      ih (fun x hx => hv x (by simp [hx]))]

/-! ## The scanner on well-formed input -/

/-- The scanner steps over one whole valid character encoding. -/
theorem scanFrom_char {c : Nat} (hv : ValidScalar c) (vl : Nat)
    (tail : List Nat) :
    scanFrom vl [] (encodeChar c ++ tail) =
      scanFrom (vl + (encodeChar c).length) [] tail := by
  obtain ⟨hr, hs⟩ := hv
  by_cases h1 : c < 0x80
  · rw [encodeChar_one h1]
    have hw : utf8ByteWidth c = 1 := width_one h1
    simp [scanFrom, hw]
  · by_cases h2 : c < 0x800
    · rw [encodeChar_two (by omega) h2]
      have hw : utf8ByteWidth (0xC0 + c / 0x40) = 2 := width_two (by omega) (by omega)
      have hc1 := contOk_two_first (c := c) (by omega) h2
      simp [scanFrom, hw, hc1]
    · by_cases h3 : c < 0x10000
      · rw [encodeChar_three (by omega) h3]
        have hw : utf8ByteWidth (0xE0 + c / 0x1000) = 3 :=
          width_three (by omega) (by omega)
        have hc1 := contOk_three_first (c := c) ⟨hr, hs⟩ (by omega) h3
        have hc2 : contOk (0xE0 + c / 0x1000) 2 (0x80 + c % 0x40) = true :=
          contOk_later_true (by omega) (by omega) (by omega)
        simp [scanFrom, hw, hc1, hc2]
      · rw [encodeChar_four (by omega)]
        have hw : utf8ByteWidth (0xF0 + c / 0x40000) = 4 :=
          width_four (by omega) (by omega)
        have hc1 := contOk_four_first (c := c) (by omega) (by omega)
        have hc2 : contOk (0xF0 + c / 0x40000) 2 (0x80 + c / 0x40 % 0x40) = true :=
          contOk_later_true (by omega) (by omega) (by omega)
        have hc3 : contOk (0xF0 + c / 0x40000) 3 (0x80 + c % 0x40) = true :=
          contOk_later_true (by omega) (by omega) (by omega)
        simp [scanFrom, hw, hc1, hc2, hc3]

/-- The scanner steps over any sequence of whole valid characters. -/
theorem scanFrom_encode {cps : List Nat} (hv : AllValid cps) (vl : Nat)
    (tail : List Nat) :
    scanFrom vl [] (encodeUtf8 cps ++ tail) =
      scanFrom (vl + (encodeUtf8 cps).length) [] tail := by
  induction cps generalizing vl with
  | nil => simp [encodeUtf8_nil]
  | cons c cs ih =>
    rw [encodeUtf8_cons, List.append_assoc,
      scanFrom_char (hv c (by simp)) vl,
      ih (fun x hx => hv x (by simp [hx]))]
    simp only [List.length_append, Nat.add_assoc]

/-- The scanner parks a proper nonempty front part of a valid character
    encoding as the incomplete carried sequence. -/
theorem scanFrom_take {c : Nat} (hv : ValidScalar c) {j : Nat} (hj1 : 0 < j)
    (hj2 : j < (encodeChar c).length) (vl : Nat) :
    scanFrom vl [] ((encodeChar c).take j) =
      ScanResult.incomplete vl ((encodeChar c).take j) := by
  obtain ⟨hr, hs⟩ := hv
  by_cases h1 : c < 0x80
  · rw [encodeChar_one h1] at hj2 ⊢
    simp at hj2
    omega
  · by_cases h2 : c < 0x800
    · rw [encodeChar_two (by omega) h2] at hj2 ⊢
      simp at hj2
      have hj : j = 1 := by omega
      subst hj
      have hw : utf8ByteWidth (0xC0 + c / 0x40) = 2 := width_two (by omega) (by omega)
      simp [scanFrom, hw]
    · by_cases h3 : c < 0x10000
      · rw [encodeChar_three (by omega) h3] at hj2 ⊢
        simp at hj2
        have hw : utf8ByteWidth (0xE0 + c / 0x1000) = 3 :=
          width_three (by omega) (by omega)
        have hc1 := contOk_three_first (c := c) ⟨hr, hs⟩ (by omega) h3
        interval_cases j
        · simp [scanFrom, hw]
        · simp [scanFrom, hw, hc1]
      · rw [encodeChar_four (by omega)] at hj2 ⊢
        simp at hj2
        have hw : utf8ByteWidth (0xF0 + c / 0x40000) = 4 :=
          width_four (by omega) (by omega)
        have hc1 := contOk_four_first (c := c) (by omega) (by omega)
        have hc2 : contOk (0xF0 + c / 0x40000) 2 (0x80 + c / 0x40 % 0x40) = true :=
          contOk_later_true (by omega) (by omega) (by omega)
        interval_cases j
        · simp [scanFrom, hw]
        · simp [scanFrom, hw, hc1]
        · simp [scanFrom, hw, hc1, hc2]

/-! ## Completing a carried sequence -/

/-- Feeding the missing tail of a valid character encoding to a carried
    front part completes exactly that scalar, leaving the rest untouched. -/
theorem tryComplete_complete {c : Nat} (hv : ValidScalar c) {k : Nat}
    (hk : 0 < k) (hkw : k < (encodeChar c).length) (more : List Nat) :
    tryCompleteAux ((encodeChar c).headD 0) ((encodeChar c).take k)
        ((encodeChar c).drop k ++ more) = CarryStep.completed c more := by
  obtain ⟨hr, hs⟩ := hv
  by_cases h1 : c < 0x80
  · rw [encodeChar_one h1] at hkw
    simp at hkw
    omega
  · by_cases h2 : c < 0x800
    · rw [encodeChar_two (by omega) h2] at hkw ⊢
      simp at hkw
      have hk1 : k = 1 := by omega
      subst hk1
      have hw : utf8ByteWidth (0xC0 + c / 0x40) = 2 := width_two (by omega) (by omega)
      have hc1 := contOk_two_first (c := c) (by omega) h2
      simp [tryCompleteAux, hw, hc1, decodeScalar_two (c := c) (by omega) h2]
    · by_cases h3 : c < 0x10000
      · rw [encodeChar_three (by omega) h3] at hkw ⊢
        simp at hkw
        have hw : utf8ByteWidth (0xE0 + c / 0x1000) = 3 :=
          width_three (by omega) (by omega)
        have hc1 := contOk_three_first (c := c) ⟨hr, hs⟩ (by omega) h3
        have hc2 : contOk (0xE0 + c / 0x1000) 2 (0x80 + c % 0x40) = true :=
          contOk_later_true (by omega) (by omega) (by omega)
        have hd := decodeScalar_three (c := c) (by omega) h3
        interval_cases k
        · simp [tryCompleteAux, hw, hc1, hc2, hd]
        · simp [tryCompleteAux, hw, hc1, hc2, hd]
      · rw [encodeChar_four (by omega)] at hkw ⊢
        simp at hkw
        have hw : utf8ByteWidth (0xF0 + c / 0x40000) = 4 :=
          width_four (by omega) (by omega)
        have hc1 := contOk_four_first (c := c) (by omega) (by omega)
        have hc2 : contOk (0xF0 + c / 0x40000) 2 (0x80 + c / 0x40 % 0x40) = true :=
          contOk_later_true (by omega) (by omega) (by omega)
        have hc3 : contOk (0xF0 + c / 0x40000) 3 (0x80 + c % 0x40) = true :=
          contOk_later_true (by omega) (by omega) (by omega)
        have hd := decodeScalar_four (c := c) (by omega) (by omega)
        interval_cases k
        · simp [tryCompleteAux, hw, hc1, hc2, hc3, hd]
        · simp [tryCompleteAux, hw, hc1, hc2, hc3, hd]
        · simp [tryCompleteAux, hw, hc1, hc2, hc3, hd]

/-- Feeding a further (still proper) part of a valid character encoding to a
    carried front part just extends the carried sequence. -/
theorem tryComplete_extend {c : Nat} (hv : ValidScalar c) {k j : Nat}
    (hk : 0 < k) (hkj : k ≤ j) (hj : j < (encodeChar c).length) :
    tryCompleteAux ((encodeChar c).headD 0) ((encodeChar c).take k)
        (((encodeChar c).take j).drop k) =
      CarryStep.incompleteAll ((encodeChar c).take j) := by
  obtain ⟨hr, hs⟩ := hv
  by_cases h1 : c < 0x80
  · rw [encodeChar_one h1] at hj
    simp at hj
    omega
  · by_cases h2 : c < 0x800
    · rw [encodeChar_two (by omega) h2] at hj ⊢
      simp at hj
      have hk1 : k = 1 := by omega
      have hj1 : j = 1 := by omega
      subst hk1; subst hj1
      simp [tryCompleteAux]
    · by_cases h3 : c < 0x10000
      · rw [encodeChar_three (by omega) h3] at hj ⊢
        simp at hj
        have hw : utf8ByteWidth (0xE0 + c / 0x1000) = 3 :=
          width_three (by omega) (by omega)
        have hc1 := contOk_three_first (c := c) ⟨hr, hs⟩ (by omega) h3
        have hku : k < 3 := by omega
        interval_cases k <;> interval_cases j
        · simp [tryCompleteAux]
        · simp [tryCompleteAux, hw, hc1]
        · simp [tryCompleteAux]
      · rw [encodeChar_four (by omega)] at hj ⊢
        simp at hj
        have hw : utf8ByteWidth (0xF0 + c / 0x40000) = 4 :=
          width_four (by omega) (by omega)
        have hc1 := contOk_four_first (c := c) (by omega) (by omega)
        have hc2 : contOk (0xF0 + c / 0x40000) 2 (0x80 + c / 0x40 % 0x40) = true :=
          contOk_later_true (by omega) (by omega) (by omega)
        have hku : k < 4 := by omega
        interval_cases k <;> interval_cases j
        · simp [tryCompleteAux]
        · simp [tryCompleteAux, hw, hc1]
        · simp [tryCompleteAux, hw, hc1, hc2]
        · simp [tryCompleteAux]
        · simp [tryCompleteAux, hw, hc2]
        · simp [tryCompleteAux]

/-! ## Unfolding `runNoCarry` -/

theorem scanValid_nil : scanValid [] = ScanResult.ok 0 := rfl

theorem scanValid_error_ne_nil {input : List Nat} {vl d : Nat}
    (h : scanValid input = ScanResult.error vl d) : input ≠ [] := by
  intro he
  subst he
  simp [scanValid, scanFrom] at h

theorem runNoCarryF_congr :
    ∀ f1 : Nat, ∀ input : List Nat, ∀ f2 : Nat,
      input.length < f1 → input.length < f2 →
      runNoCarryF f1 input = runNoCarryF f2 input := by
  intro f1
  induction f1 with
  | zero => intro input f2 h1 _; omega
  | succ f ih =>
    intro input f2 h1 h2
    cases f2 with
    | zero => omega
    | succ f2' =>
      simp only [runNoCarryF]
      cases hscan : scanValid input with
      | ok vl => rfl
      | incomplete vl seq => rfl
      | error vl d =>
        have hne : input ≠ [] := scanValid_error_ne_nil hscan
        have hlen : 0 < input.length := List.length_pos.mpr hne
        have hrec := ih (input.drop (d + 1)) f2'
          (by simp only [List.length_drop]; omega)
          (by simp only [List.length_drop]; omega)
        simp [hrec]

theorem runNoCarry_ok {input : List Nat} {vl : Nat}
    (h : scanValid input = ScanResult.ok vl) :
    runNoCarry input = (textEvent (input.take vl), []) := by
  unfold runNoCarry
  simp only [runNoCarryF, h]

theorem runNoCarry_incomplete {input seq : List Nat} {vl : Nat}
    (h : scanValid input = ScanResult.incomplete vl seq) :
    runNoCarry input = (textEvent (input.take vl), seq) := by
  unfold runNoCarry
  simp only [runNoCarryF, h]

theorem runNoCarry_error {input : List Nat} {vl d : Nat}
    (h : scanValid input = ScanResult.error vl d) :
    runNoCarry input =
      (textEvent (input.take vl) ++
         (Event.error "invalid byte sequence" :: Event.text [0xFFFD] ::
           (runNoCarry (input.drop (d + 1))).1),
       (runNoCarry (input.drop (d + 1))).2) := by
  have hne : input ≠ [] := scanValid_error_ne_nil h
  have hlen : 0 < input.length := List.length_pos.mpr hne
  unfold runNoCarry
  rw [runNoCarryF_congr ((input.drop (d + 1)).length + 1) (input.drop (d + 1))
        input.length (by omega) (by simp only [List.length_drop]; omega)]
  simp only [runNoCarryF, h]

/-! ## Valid-input characterization of the decoder -/

theorem AllValid_append {a b : List Nat} (h : AllValid (a ++ b)) :
    AllValid a ∧ AllValid b :=
  ⟨fun x hx => h x (by simp [hx]), fun x hx => h x (by simp [hx])⟩

theorem textEvent_nil : textEvent [] = [] := rfl

theorem textConcat_textEvent_enc {cps : List Nat} (hv : AllValid cps) :
    textConcat (textEvent (encodeUtf8 cps)) = cps := by
  unfold textEvent
  by_cases h : (encodeUtf8 cps).isEmpty
  · rw [if_pos h]
    have := encodeUtf8_eq_nil (List.isEmpty_iff.mp h)
    simp [textConcat, this]
  · rw [if_neg h]
    simp [textConcat, decodeUtf8Bytes_encode hv]

theorem errorCount_textEvent (bs : List Nat) :
    errorCount (textEvent bs) = 0 := by
  unfold textEvent
  split_ifs <;> simp [errorCount]

/-- Splitting an arbitrary front part of a well-formed encoding into whole
    characters plus a legitimate carry. -/
theorem enc_split :
    ∀ cps chunk rest : List Nat, AllValid cps →
      chunk ++ rest = encodeUtf8 cps →
      ∃ cps1 cps2 carry, cps = cps1 ++ cps2 ∧
        chunk = encodeUtf8 cps1 ++ carry ∧ GoodCarry cps2 carry := by
  intro cps
  induction cps with
  | nil =>
    intro chunk rest _ h
    rw [encodeUtf8_nil] at h
    refine ⟨[], [], [], rfl, ?_, Or.inl rfl⟩
    rw [encodeUtf8_nil, (List.append_eq_nil.mp h).1]
    rfl
  | cons c cs ih =>
    intro chunk rest hv h
    rw [encodeUtf8_cons] at h
    by_cases hlen : (encodeChar c).length ≤ chunk.length
    · have h1 : chunk.take (encodeChar c).length = encodeChar c := by
        have := congrArg (List.take (encodeChar c).length) h
        rwa [List.take_append_of_le_length hlen, List.take_left] at this
      have h2 : chunk = encodeChar c ++ chunk.drop (encodeChar c).length := by
        conv_lhs => rw [← List.take_append_drop (encodeChar c).length chunk]
        rw [h1]
      have h3 : chunk.drop (encodeChar c).length ++ rest = encodeUtf8 cs := by
        have hx : encodeChar c ++ (chunk.drop (encodeChar c).length ++ rest) =
            encodeChar c ++ encodeUtf8 cs := by
          rw [← List.append_assoc, ← h2, h]
        exact List.append_cancel_left hx
      obtain ⟨cps1, cps2, carry, hcps, hchunk, hgood⟩ :=
        ih (chunk.drop (encodeChar c).length) rest
          (fun x hx => hv x (by simp [hx])) h3
      refine ⟨c :: cps1, cps2, carry, by simp [hcps], ?_, hgood⟩
      rw [encodeUtf8_cons, List.append_assoc, ← hchunk, ← h2]
    · push_neg at hlen
      have h1 : chunk = (encodeChar c).take chunk.length := by
        have := congrArg (List.take chunk.length) h
        rwa [List.take_left, List.take_append_of_le_length (by omega)] at this
      by_cases hnil : chunk = []
      · exact ⟨[], c :: cs, [], rfl, by simp [hnil, encodeUtf8_nil], Or.inl rfl⟩
      · refine ⟨[], c :: cs, chunk, rfl, by simp [encodeUtf8_nil], ?_⟩
        exact Or.inr ⟨c, cs, rfl, List.length_pos.mpr hnil, hlen, h1⟩

/-- On a front part of well-formed input (whole characters plus a legitimate
    carry), the no-carry loop pushes exactly those characters as one chunk
    and parks the carry, with no errors. -/
theorem runNoCarry_good {cps1 cps2 carry : List Nat}
    (h1 : AllValid cps1) (h2 : AllValid cps2) (hg : GoodCarry cps2 carry) :
    runNoCarry (encodeUtf8 cps1 ++ carry) = (textEvent (encodeUtf8 cps1), carry) := by
  rcases hg with hnil | ⟨c, cs, hcps, hpos, hlt, hcarry⟩
  · subst hnil
    have hscan : scanValid (encodeUtf8 cps1 ++ []) = ScanResult.ok (encodeUtf8 cps1).length := by
      unfold scanValid
      rw [scanFrom_encode h1 0 []]
      simp [scanFrom]
    rw [runNoCarry_ok hscan, List.take_append_of_le_length (by simp),
      List.take_length]
  · have hvc : ValidScalar c := h2 c (by simp [hcps])
    have hscan : scanValid (encodeUtf8 cps1 ++ carry) =
        ScanResult.incomplete (encodeUtf8 cps1).length carry := by
      unfold scanValid
      rw [scanFrom_encode h1 0 carry]
      conv_lhs => rw [hcarry]
      rw [scanFrom_take hvc hpos hlt]
      rw [← hcarry]
      simp
    rw [runNoCarry_incomplete hscan, List.take_left]

/-- Unfolding `Utf8LossyDecoder.process` on a non-empty carry via `headD`. -/
theorem process_carry_eq {carry chunk : List Nat} (hne : carry ≠ []) :
    Utf8LossyDecoder.process carry chunk =
      match tryCompleteAux (carry.headD 0) carry chunk with
      | CarryStep.incompleteAll c => ([], c)
      | CarryStep.completed cp rest =>
        let r := runNoCarry rest
        (Event.text [cp] :: r.1, r.2)
      | CarryStep.failed rest =>
        let r := runNoCarry rest
        (Event.error "invalid byte sequence" :: Event.text [0xFFFD] :: r.1, r.2) := by
  cases carry with
  | nil => exact absurd rfl hne
  | cons lead ct => rfl

/-- One `process` call on well-formed input: from a good state, for a chunk
    that together with the carry is a front part of the remaining encoding,
    the call emits exactly the newly completed scalars, no errors, and leaves
    a good state. -/
theorem process_step {cps chunk rest carry : List Nat}
    (hv : AllValid cps) (hg : GoodCarry cps carry)
    (he : (carry ++ chunk) ++ rest = encodeUtf8 cps) :
    ∃ cps1 cps2 carry2, cps = cps1 ++ cps2 ∧
      carry ++ chunk = encodeUtf8 cps1 ++ carry2 ∧ GoodCarry cps2 carry2 ∧
      textConcat (Utf8LossyDecoder.process carry chunk).1 = cps1 ∧
      errorCount (Utf8LossyDecoder.process carry chunk).1 = 0 ∧
      (Utf8LossyDecoder.process carry chunk).2 = carry2 := by
  rcases hg with hnil | ⟨c, cs, hcps, hpos, hlt, hcarry⟩
  · subst hnil
    simp only [List.nil_append] at he
    obtain ⟨cps1, cps2, carry2, hcps, hchunk, hgood⟩ := enc_split cps chunk rest hv he
    subst hcps
    obtain ⟨hv1, hv2⟩ := AllValid_append hv
    have hrun : Utf8LossyDecoder.process [] chunk = (textEvent (encodeUtf8 cps1), carry2) := by
      show runNoCarry chunk = _
      rw [hchunk]
      exact runNoCarry_good hv1 hv2 hgood
    exact ⟨cps1, cps2, carry2, rfl, by simpa using hchunk, hgood,
      by rw [hrun]; exact textConcat_textEvent_enc hv1,
      by rw [hrun]; exact errorCount_textEvent _,
      by rw [hrun]⟩
  · subst hcps
    have hvc : ValidScalar c := hv c (by simp)
    have hvcs : AllValid cs := fun x hx => hv x (by simp [hx])
    obtain ⟨k, hk⟩ : ∃ k, carry.length = k := ⟨_, rfl⟩
    rw [hk] at hpos hlt hcarry
    have hne : carry ≠ [] := by
      intro h0
      rw [h0] at hk
      simp at hk
      omega
    have hhead : carry.headD 0 = (encodeChar c).headD 0 := by
      rw [hcarry]
      cases hec : encodeChar c with
      | nil => simp
      | cons e0 et =>
        cases k with
        | zero => omega
        | succ k' => simp
    by_cases hsplit : k + chunk.length < (encodeChar c).length
    · -- the chunk does not yet complete the pending character
      have hlen2 : (carry ++ chunk).length = k + chunk.length := by simp [hk]
      have htake : carry ++ chunk = (encodeChar c).take (k + chunk.length) := by
        have h1 := congrArg (List.take (k + chunk.length)) he
        rw [← hlen2, List.take_left, hlen2, encodeUtf8_cons,
          List.take_append_of_le_length (by omega)] at h1
        exact h1
      have hchunk2 : chunk = ((encodeChar c).take (k + chunk.length)).drop k := by
        have h2 := congrArg (List.drop carry.length) htake
        rw [List.drop_left] at h2
        rw [hk] at h2
        exact h2
      have hstep := tryComplete_extend (c := c) (k := k) (j := k + chunk.length)
        hvc hpos (by omega) hsplit
      have hproc : Utf8LossyDecoder.process carry chunk =
          ([], (encodeChar c).take (k + chunk.length)) := by
        rw [process_carry_eq hne, hhead]
        conv_lhs => rw [hcarry, hchunk2]
        rw [hstep]
      refine ⟨[], c :: cs, (encodeChar c).take (k + chunk.length), rfl, ?_, ?_,
        by rw [hproc]; rfl, by rw [hproc]; rfl, by rw [hproc]⟩
      · rw [encodeUtf8_nil, List.nil_append]
        exact htake
      · refine Or.inr ⟨c, cs, rfl, ?_, ?_, ?_⟩
        · rw [List.length_take_of_le (by omega)]; omega
        · rw [List.length_take_of_le (by omega)]; exact hsplit
        · rw [List.length_take_of_le (by omega)]
    · -- the chunk completes the pending character
      push_neg at hsplit
      have hlen2 : (carry ++ chunk).length = k + chunk.length := by simp [hk]
      have htake : (carry ++ chunk).take (encodeChar c).length = encodeChar c := by
        have h1 := congrArg (List.take (encodeChar c).length) he
        rw [List.take_append_of_le_length (by omega), encodeUtf8_cons,
          List.take_left] at h1
        exact h1
      have hcc : carry ++ chunk =
          encodeChar c ++ (carry ++ chunk).drop (encodeChar c).length := by
        conv_lhs => rw [← List.take_append_drop (encodeChar c).length (carry ++ chunk)]
        rw [htake]
      have hrest : (carry ++ chunk).drop (encodeChar c).length ++ rest = encodeUtf8 cs := by
        have hx : encodeChar c ++ ((carry ++ chunk).drop (encodeChar c).length ++ rest) =
            encodeChar c ++ encodeUtf8 cs := by
          rw [← List.append_assoc, ← hcc, he, encodeUtf8_cons]
        exact List.append_cancel_left hx
      have hchunkeq : chunk =
          (encodeChar c).drop k ++ (carry ++ chunk).drop (encodeChar c).length := by
        have h2 := congrArg (List.drop k) hcc
        rw [← hk, List.drop_left, hk, List.drop_append_of_le_length (by omega)] at h2
        exact h2
      have hstep := tryComplete_complete hvc hpos hlt
        ((carry ++ chunk).drop (encodeChar c).length)
      obtain ⟨cps1', cps2', carry2, hcps', hchunk', hgood'⟩ :=
        enc_split cs ((carry ++ chunk).drop (encodeChar c).length) rest hvcs hrest
      have hv2 := hvcs
      rw [hcps'] at hv2
      obtain ⟨hv21, hv22⟩ := AllValid_append hv2
      have hproc : Utf8LossyDecoder.process carry chunk =
          (Event.text [c] :: textEvent (encodeUtf8 cps1'), carry2) := by
        rw [process_carry_eq hne, hhead]
        conv_lhs => rw [hcarry, hchunkeq]
        rw [hstep]
        show (Event.text [c] :: (runNoCarry _).1, (runNoCarry _).2) = _
        rw [hchunk', runNoCarry_good hv21 hv22 hgood']
      refine ⟨c :: cps1', cps2', carry2, by simp [hcps'], ?_, hgood', ?_, ?_,
        by rw [hproc]⟩
      · rw [encodeUtf8_cons, List.append_assoc, ← hchunk', ← hcc]
      · rw [hproc]
        show [c] ++ textConcat (textEvent (encodeUtf8 cps1')) = c :: cps1'
        rw [textConcat_textEvent_enc hv21]
        rfl
      · rw [hproc]
        show errorCount (textEvent (encodeUtf8 cps1')) = 0
        exact errorCount_textEvent _

/-- Folding `process` over all chunks of a well-formed stream from a good
    state: the trace carries exactly the completed scalars, no errors, and
    the final carry is the encoding of the scalars still to be produced. -/
theorem run_fold :
    ∀ chunks : List (List Nat), ∀ cps carry : List Nat, AllValid cps →
      GoodCarry cps carry → carry ++ chunks.flatten = encodeUtf8 cps →
      ∃ cps1 cps2, cps = cps1 ++ cps2 ∧
        textConcat (utf8RunState carry chunks).1 = cps1 ∧
        errorCount (utf8RunState carry chunks).1 = 0 ∧
        GoodCarry cps2 (utf8RunState carry chunks).2 ∧
        encodeUtf8 cps2 = (utf8RunState carry chunks).2 := by
  intro chunks
  induction chunks with
  | nil =>
    intro cps carry hv hg he
    simp only [List.flatten_nil, List.append_nil] at he
    exact ⟨[], cps, rfl, by simp [utf8RunState, textConcat],
      by simp [utf8RunState, errorCount], hg, by simp [utf8RunState, he]⟩
  | cons ch chs ih =>
    intro cps carry hv hg he
    have hee : (carry ++ ch) ++ chs.flatten = encodeUtf8 cps := by
      rw [List.append_assoc]
      simpa [List.flatten_cons] using he
    obtain ⟨cps1, cps2, carry2, hcps, hchunk, hgood, htext, herr, hstate⟩ :=
      process_step hv hg hee
    subst hcps
    obtain ⟨hv1, hv2⟩ := AllValid_append hv
    have he2 : carry2 ++ chs.flatten = encodeUtf8 cps2 := by
      have hx : encodeUtf8 cps1 ++ (carry2 ++ chs.flatten) =
          encodeUtf8 cps1 ++ encodeUtf8 cps2 := by
        rw [← List.append_assoc, ← hchunk, List.append_assoc, ← encodeUtf8_append]
        simpa [List.flatten_cons] using he
      exact List.append_cancel_left hx
    obtain ⟨cps1', cps2', hcps2, htext', herr', hgood', hencfin⟩ :=
      ih cps2 carry2 hv2 hgood he2
    have hrun : utf8RunState carry (ch :: chs) =
        ((Utf8LossyDecoder.process carry ch).1 ++ (utf8RunState carry2 chs).1,
          (utf8RunState carry2 chs).2) := by
      simp only [utf8RunState]
      rw [hstate]
    refine ⟨cps1 ++ cps1', cps2', by rw [hcps2, List.append_assoc], ?_, ?_,
      by rw [hrun]; exact hgood', by rw [hrun]; exact hencfin⟩
    · rw [hrun, textConcat_append, htext, htext']
    · rw [hrun, errorCount_append, herr, herr']

/-- C1: Chunk-boundary invariance.  For every valid UTF-8 string (the
    encoding of a sequence of Unicode scalar values) and every way of
    splitting it into consecutive byte chunks (empty chunks allowed), feeding
    the chunks in order to `Utf8LossyDecoder::process` and then calling
    `finish` produces pushed text chunks whose concatenation is exactly the
    original string, with zero error calls to the sink. -/
theorem utf8_chunk_boundary_invariance (cps : List Nat)
    (chunks : List (List Nat)) (hv : AllValid cps)
    (hj : chunks.flatten = encodeUtf8 cps) :
    textConcat (runUtf8 chunks) = cps ∧ errorCount (runUtf8 chunks) = 0 := by
  obtain ⟨cps1, cps2, hcps, htext, herr, hgood, hencfin⟩ :=
    run_fold chunks cps [] hv (Or.inl rfl) (by simpa using hj)
  have hcarrynil : (utf8RunState [] chunks).2 = [] := by
    rcases hgood with hnil | ⟨c, cs, hcps2, hpos, hlt, hcarry⟩
    · exact hnil
    · exfalso
      have hlenf := congrArg List.length hencfin
      rw [hcps2, encodeUtf8_cons, List.length_append] at hlenf
      omega
  have hcps2nil : cps2 = [] := by
    apply encodeUtf8_eq_nil
    rw [hencfin, hcarrynil]
  subst hcps2nil
  rw [List.append_nil] at hcps
  subst hcps
  have hrun : runUtf8 chunks =
      (utf8RunState [] chunks).1 ++
        Utf8LossyDecoder.finish (utf8RunState [] chunks).2 := rfl
  rw [hrun, hcarrynil]
  constructor
  · rw [textConcat_append, htext]
    simp [Utf8LossyDecoder.finish, textConcat]
  · rw [errorCount_append, herr]
    simp [Utf8LossyDecoder.finish, errorCount]

/-- Witness for C1 at a concrete splitting of the encoding of "aꙮ" into the
    chunks `[61 EA]` and `[99 AE]` (the three-byte character split in two). -/
theorem utf8_chunk_boundary_invariance_witness :
    textConcat (runUtf8 [[0x61, 0xEA], [0x99, 0xAE]]) = [0x61, 0xA66E] ∧
      errorCount (runUtf8 [[0x61, 0xEA], [0x99, 0xAE]]) = 0 :=
  utf8_chunk_boundary_invariance [0x61, 0xA66E] [[0x61, 0xEA], [0x99, 0xAE]]
    (by decide) (by decide)

/-! ## Shape of the traces the UTF-8 decoder emits -/

theorem errFollowed_textEvent (bs : List Nat) :
    errFollowed (textEvent bs) = true := by
  unfold textEvent
  split_ifs <;> simp [errFollowed]

theorem lastOk_textEvent (bs : List Nat) : lastOk (textEvent bs) = true := by
  unfold textEvent
  split_ifs <;> simp [lastOk]

theorem allErrMsg_textEvent (m : String) (bs : List Nat) :
    allErrMsg m (textEvent bs) = true := by
  unfold textEvent
  split_ifs <;> simp [allErrMsg]

theorem noEmptyText_textEvent (bs : List Nat) :
    noEmptyText (textEvent bs) = true := by
  unfold textEvent
  split_ifs with h
  · simp [noEmptyText]
  · have hne : decodeUtf8Bytes bs ≠ [] :=
      decodeUtf8Bytes_ne_nil (by intro h0; subst h0; simp at h)
    simp [noEmptyText, List.isEmpty_iff, hne]

theorem lastOk_cons_text (cs : List Nat) (l : List Event)
    (h : lastOk l = true) : lastOk (Event.text cs :: l) = true := by
  cases l with
  | nil => simp [lastOk]
  | cons f fs => rw [lastOk_cons _ _ (by simp)]; exact h

theorem lastOk_pair (m : String) (cs : List Nat) (l : List Event)
    (h : lastOk l = true) :
    lastOk (Event.error m :: Event.text cs :: l) = true := by
  rw [lastOk_cons _ _ (by simp)]
  exact lastOk_cons_text _ _ h

theorem errFollowed_pair (m : String) (l : List Event)
    (h : errFollowed l = true) :
    errFollowed (Event.error m :: Event.text [0xFFFD] :: l) = true := by
  rw [errFollowed_cons_error]
  simp [errFollowed_cons_text, h]

theorem allErrMsg_cons_text (m : String) (cs : List Nat) (l : List Event) :
    allErrMsg m (Event.text cs :: l) = allErrMsg m l := by
  simp [allErrMsg]

theorem allErrMsg_cons_error (m m' : String) (l : List Event) :
    allErrMsg m (Event.error m' :: l) = (decide (m' = m) && allErrMsg m l) := by
  simp [allErrMsg]

theorem noEmptyText_cons_text (cs : List Nat) (l : List Event) :
    noEmptyText (Event.text cs :: l) = (!cs.isEmpty && noEmptyText l) := by
  simp [noEmptyText]

theorem noEmptyText_cons_error (m : String) (l : List Event) :
    noEmptyText (Event.error m :: l) = noEmptyText l := by
  simp [noEmptyText]

/-- The shape invariant of one no-carry loop: every error says
    "invalid byte sequence" and is immediately followed by one replacement
    chunk, the trace does not end on an error, and no empty chunk is
    pushed. -/
theorem runNoCarryF_shape (fuel : Nat) :
    ∀ input : List Nat,
      errFollowed (runNoCarryF fuel input).1 = true ∧
      lastOk (runNoCarryF fuel input).1 = true ∧
      allErrMsg "invalid byte sequence" (runNoCarryF fuel input).1 = true ∧
      noEmptyText (runNoCarryF fuel input).1 = true := by
  induction fuel with
  | zero =>
    intro input
    simp [runNoCarryF, errFollowed, lastOk, allErrMsg, noEmptyText]
  | succ f ih =>
    intro input
    simp only [runNoCarryF]
    cases hscan : scanValid input with
    | ok vl =>
      exact ⟨errFollowed_textEvent _, lastOk_textEvent _,
        allErrMsg_textEvent _ _, noEmptyText_textEvent _⟩
    | incomplete vl seq =>
      exact ⟨errFollowed_textEvent _, lastOk_textEvent _,
        allErrMsg_textEvent _ _, noEmptyText_textEvent _⟩
    | error vl d =>
      obtain ⟨ihf, ihl, ihm, ihn⟩ := ih (input.drop (d + 1))
      refine ⟨?_, ?_, ?_, ?_⟩
      · exact errFollowed_append _ _ (errFollowed_textEvent _)
          (lastOk_textEvent _) (errFollowed_pair _ _ ihf)
      · exact lastOk_append _ _ (lastOk_pair _ _ _ ihl) (by simp)
      · rw [allErrMsg_append]
        simp only [allErrMsg_textEvent, Bool.true_and]
        rw [allErrMsg_cons_error]
        simp [allErrMsg_cons_text, ihm]
      · rw [noEmptyText_append]
        simp only [noEmptyText_textEvent, Bool.true_and]
        rw [noEmptyText_cons_error, noEmptyText_cons_text]
        simp [ihn]

/-- Unfolding `process` when the carry stays incomplete. -/
theorem process_eq_incomplete {lead : Nat} {ct chunk c : List Nat}
    (h : tryCompleteAux lead (lead :: ct) chunk = CarryStep.incompleteAll c) :
    Utf8LossyDecoder.process (lead :: ct) chunk = ([], c) := by
  simp only [Utf8LossyDecoder.process, h]

/-- Unfolding `process` when the carry completes a scalar. -/
theorem process_eq_completed {lead cp : Nat} {ct chunk rest : List Nat}
    (h : tryCompleteAux lead (lead :: ct) chunk = CarryStep.completed cp rest) :
    Utf8LossyDecoder.process (lead :: ct) chunk =
      (Event.text [cp] :: (runNoCarry rest).1, (runNoCarry rest).2) := by
  simp only [Utf8LossyDecoder.process, h]

/-- Unfolding `process` when the carried bytes are flagged invalid. -/
theorem process_eq_failed {lead : Nat} {ct chunk rest : List Nat}
    (h : tryCompleteAux lead (lead :: ct) chunk = CarryStep.failed rest) :
    Utf8LossyDecoder.process (lead :: ct) chunk =
      (Event.error "invalid byte sequence" :: Event.text [0xFFFD] ::
         (runNoCarry rest).1, (runNoCarry rest).2) := by
  simp only [Utf8LossyDecoder.process, h]

/-- The shape invariant transferred to `runNoCarry`. -/
theorem runNoCarry_shape (input : List Nat) :
    errFollowed (runNoCarry input).1 = true ∧
    lastOk (runNoCarry input).1 = true ∧
    allErrMsg "invalid byte sequence" (runNoCarry input).1 = true ∧
    noEmptyText (runNoCarry input).1 = true :=
  runNoCarryF_shape (input.length + 1) input

/-- The same shape invariant for a whole `process` call, from any state. -/
theorem process_shape (carry chunk : List Nat) :
    errFollowed (Utf8LossyDecoder.process carry chunk).1 = true ∧
    lastOk (Utf8LossyDecoder.process carry chunk).1 = true ∧
    allErrMsg "invalid byte sequence"
      (Utf8LossyDecoder.process carry chunk).1 = true ∧
    noEmptyText (Utf8LossyDecoder.process carry chunk).1 = true := by
  cases carry with
  | nil => exact runNoCarry_shape chunk
  | cons lead ct =>
    cases htc : tryCompleteAux lead (lead :: ct) chunk with
    | incompleteAll c =>
      rw [process_eq_incomplete htc]
      simp [errFollowed, lastOk, allErrMsg, noEmptyText]
    | completed cp rest =>
      obtain ⟨hf, hl, hm, hn⟩ := runNoCarry_shape rest
      rw [process_eq_completed htc]
      refine ⟨?_, ?_, ?_, ?_⟩
      · rw [errFollowed_cons_text]; exact hf
      · exact lastOk_cons_text _ _ hl
      · rw [allErrMsg_cons_text]; exact hm
      · rw [noEmptyText_cons_text]; simp [hn]
    | failed rest =>
      obtain ⟨hf, hl, hm, hn⟩ := runNoCarry_shape rest
      rw [process_eq_failed htc]
      refine ⟨?_, ?_, ?_, ?_⟩
      · exact errFollowed_pair _ _ hf
      · exact lastOk_pair _ _ _ hl
      · rw [allErrMsg_cons_error]
        simp [allErrMsg_cons_text, hm]
      · rw [noEmptyText_cons_error, noEmptyText_cons_text]
        simp [hn]

/-- Trace shape of a multi-chunk run (before `finish`). -/
theorem utf8RunState_shape :
    ∀ (chunks : List (List Nat)) (carry : List Nat),
      errFollowed (utf8RunState carry chunks).1 = true ∧
      lastOk (utf8RunState carry chunks).1 = true ∧
      noEmptyText (utf8RunState carry chunks).1 = true := by
  intro chunks
  induction chunks with
  | nil => intro carry; simp [utf8RunState, errFollowed, lastOk, noEmptyText]
  | cons ch chs ih =>
    intro carry
    obtain ⟨hf, hl, _, hn⟩ := process_shape carry ch
    obtain ⟨ihf, ihl, ihn⟩ := ih (Utf8LossyDecoder.process carry ch).2
    have hrun : utf8RunState carry (ch :: chs) =
        ((Utf8LossyDecoder.process carry ch).1 ++
           (utf8RunState (Utf8LossyDecoder.process carry ch).2 chs).1,
         (utf8RunState (Utf8LossyDecoder.process carry ch).2 chs).2) := rfl
    rw [hrun]
    refine ⟨errFollowed_append _ _ hf hl ihf, ?_, ?_⟩
    · by_cases hnil : (utf8RunState (Utf8LossyDecoder.process carry ch).2 chs).1 = []
      · rw [hnil]; simpa using hl
      · cases hx : (utf8RunState (Utf8LossyDecoder.process carry ch).2 chs).1 with
        | nil => exact absurd hx hnil
        | cons e es =>
          refine lastOk_append _ _ ?_ (by simp)
          rw [← hx]; exact ihl
    · rw [noEmptyText_append, hn, ihn]; rfl

/-- Trace shape of `finish`. -/
theorem finish_shape (carry : List Nat) :
    errFollowed (Utf8LossyDecoder.finish carry) = true ∧
    lastOk (Utf8LossyDecoder.finish carry) = true ∧
    noEmptyText (Utf8LossyDecoder.finish carry) = true := by
  unfold Utf8LossyDecoder.finish
  split_ifs <;> refine ⟨by decide, by decide, by decide⟩

/-- Trace shape of a whole UTF-8 run: every error immediately followed by one
    replacement chunk, and no empty chunk ever pushed. -/
theorem runUtf8_shape (chunks : List (List Nat)) :
    errFollowed (runUtf8 chunks) = true ∧ noEmptyText (runUtf8 chunks) = true := by
  obtain ⟨hf, hl, hn⟩ := utf8RunState_shape chunks []
  obtain ⟨hff, hfl, hfn⟩ := finish_shape (utf8RunState [] chunks).2
  have hrun : runUtf8 chunks =
      (utf8RunState [] chunks).1 ++
        Utf8LossyDecoder.finish (utf8RunState [] chunks).2 := rfl
  rw [hrun]
  constructor
  · exact errFollowed_append _ _ hf hl hff
  · rw [noEmptyText_append, hn, hfn]; rfl

/-! ## The non-UTF-8 feed loop -/

theorem legacyFeedAux_norm {σ : Type} (d : RawDecoderModel σ) :
    ∀ (fuel : Nat) (st : σ) (t out : List Nat) (errs : List String),
      legacyFeedAux d fuel st t out errs =
        ((legacyFeedAux d fuel st t [] []).1,
         out ++ (legacyFeedAux d fuel st t [] []).2.1,
         errs ++ (legacyFeedAux d fuel st t [] []).2.2) := by
  intro fuel
  induction fuel with
  | zero => intro st t out errs; simp [legacyFeedAux]
  | succ fuel ih =>
    intro st t out errs
    cases hfeed : d.rawFeed st t with
    | mk st' rest =>
      cases rest with
      | mk o oerr =>
        cases oerr with
        | none => simp [legacyFeedAux, hfeed]
        | some pr =>
          cases pr with
          | mk cause k =>
            simp only [legacyFeedAux, hfeed]
            rw [ih st' (t.drop k) (out ++ o ++ [0xFFFD]) (errs ++ [cause]),
              ih st' (t.drop k) ([] ++ o ++ [0xFFFD]) ([] ++ [cause])]
            simp [List.append_assoc]

theorem legacyFeedAux_count {σ : Type} (d : RawDecoderModel σ)
    (hnf : NoFFFD d) :
    ∀ (fuel : Nat) (st : σ) (t : List Nat),
      ((legacyFeedAux d fuel st t [] []).2.1).count 0xFFFD =
        ((legacyFeedAux d fuel st t [] []).2.2).length := by
  intro fuel
  induction fuel with
  | zero => intro st t; simp [legacyFeedAux]
  | succ fuel ih =>
    intro st t
    cases hfeed : d.rawFeed st t with
    | mk st' rest =>
      cases rest with
      | mk o oerr =>
        have ho : o.count 0xFFFD = 0 := by
          have := hnf.1 st t
          rw [hfeed] at this
          exact this
        cases oerr with
        | none => simp [legacyFeedAux, hfeed, ho]
        | some pr =>
          cases pr with
          | mk cause k =>
            simp only [legacyFeedAux, hfeed]
            rw [legacyFeedAux_norm d fuel st' (t.drop k) ([] ++ o ++ [0xFFFD])
              ([] ++ [cause])]
            simp [List.count_append, ho, ih st' (t.drop k)]

/-- C6 helper: the events of one legacy `process` call are the recorded
    error causes followed by at most one non-empty text chunk. -/
theorem textLast_map_error (l : List String) :
    textLast (l.map Event.error) = true := by
  induction l with
  | nil => simp [textLast]
  | cons m rest ih =>
    cases hr : rest.map Event.error with
    | nil => rw [List.map_cons, hr]; simp [textLast]
    | cons e es => simpa [textLast, hr] using (hr ▸ ih)

theorem textLast_map_error_text (l : List String) (cs : List Nat) :
    textLast (l.map Event.error ++ [Event.text cs]) = true := by
  induction l with
  | nil => simp [textLast]
  | cons m rest ih =>
    cases hr : rest.map Event.error ++ [Event.text cs] with
    | nil => simp at hr
    | cons e es => simpa [textLast, hr] using (hr ▸ ih)

theorem noEmptyText_map_error (l : List String) :
    noEmptyText (l.map Event.error) = true := by
  induction l with
  | nil => simp [noEmptyText]
  | cons m rest ih => simpa [noEmptyText] using ih

theorem textChunkCount_append (a b : List Event) :
    textChunkCount (a ++ b) = textChunkCount a + textChunkCount b := by
  induction a with
  | nil => simp [textChunkCount]
  | cons e rest ih => cases e <;> simp [textChunkCount, ih] <;> omega

/-- Events of one legacy `process` call: recorded causes, then at most one
    non-empty text chunk. -/
theorem legacyProcess_shape {σ : Type} (d : RawDecoderModel σ) (st : σ)
    (t : List Nat) :
    textChunkCount (legacyProcess d st t).2 ≤ 1 ∧
    textLast (legacyProcess d st t).2 = true ∧
    noEmptyText (legacyProcess d st t).2 = true := by
  have hev : (legacyProcess d st t).2 =
      ((legacyFeedAux d (t.length + 1) st t [] []).2.2).map Event.error ++
        (if ((legacyFeedAux d (t.length + 1) st t [] []).2.1).isEmpty then []
         else [Event.text (legacyFeedAux d (t.length + 1) st t [] []).2.1]) := rfl
  rw [hev]
  by_cases hout : ((legacyFeedAux d (t.length + 1) st t [] []).2.1).isEmpty
  · rw [if_pos hout, List.append_nil]
    exact ⟨by rw [textChunkCount_map_error]; omega, textLast_map_error _,
      noEmptyText_map_error _⟩
  · rw [if_neg hout]
    refine ⟨?_, textLast_map_error_text _ _, ?_⟩
    · rw [textChunkCount_append, textChunkCount_map_error]
      simp [textChunkCount]
    · rw [noEmptyText_append, noEmptyText_map_error]
      simp [noEmptyText, hout]

/-- Events of `finish` on the legacy path never include an empty chunk. -/
theorem legacyFinish_shape {σ : Type} (d : RawDecoderModel σ) (st : σ) :
    noEmptyText (legacyFinish d st) = true := by
  unfold legacyFinish
  cases hfin : d.rawFinish st with
  | mk o oerr =>
    cases oerr with
    | none =>
      simp only []
      by_cases ho : o.isEmpty
      · simp [ho, noEmptyText]
      · simp [ho, noEmptyText]
    | some cause =>
      simp only []
      by_cases ho : (o ++ [0xFFFD]).isEmpty
      · simp at ho
      · simp [ho, noEmptyText]

/-- U+FFFD accounting for one legacy `process` call: with an engine that
    never outputs U+FFFD itself, the replacement characters in the pushed
    chunk are exactly one per error. -/
theorem legacyProcess_counts {σ : Type} (d : RawDecoderModel σ)
    (hnf : NoFFFD d) (st : σ) (t : List Nat) :
    countFFFDText (legacyProcess d st t).2 = errorCount (legacyProcess d st t).2 := by
  have hev : (legacyProcess d st t).2 =
      ((legacyFeedAux d (t.length + 1) st t [] []).2.2).map Event.error ++
        (if ((legacyFeedAux d (t.length + 1) st t [] []).2.1).isEmpty then []
         else [Event.text (legacyFeedAux d (t.length + 1) st t [] []).2.1]) := rfl
  have hcount := legacyFeedAux_count d hnf (t.length + 1) st t
  rw [hev, countFFFDText_append, errorCount_append, countFFFDText_map_error,
    errorCount_map_error]
  by_cases hout : ((legacyFeedAux d (t.length + 1) st t [] []).2.1).isEmpty
  · rw [if_pos hout]
    have : (legacyFeedAux d (t.length + 1) st t [] []).2.1 = [] :=
      List.isEmpty_iff.mp hout
    rw [this] at hcount
    simp [countFFFDText, errorCount, ← hcount]
  · rw [if_neg hout]
    simp [countFFFDText, errorCount, hcount]

/-- U+FFFD accounting for `finish` on the legacy path. -/
theorem legacyFinish_counts {σ : Type} (d : RawDecoderModel σ)
    (hnf : NoFFFD d) (st : σ) :
    countFFFDText (legacyFinish d st) = errorCount (legacyFinish d st) := by
  unfold legacyFinish
  cases hfin : d.rawFinish st with
  | mk o oerr =>
    have ho : o.count 0xFFFD = 0 := by
      have := hnf.2 st
      rw [hfin] at this
      exact this
    cases oerr with
    | none =>
      simp only []
      by_cases he : o.isEmpty
      · simp [he, countFFFDText, errorCount]
      · simp [he, countFFFDText, errorCount, ho]
    | some cause =>
      simp only []
      by_cases he : (o ++ [0xFFFD]).isEmpty
      · simp at he
      · simp [he, countFFFDText, errorCount, List.count_append, ho]

/-- U+FFFD accounting over a whole legacy run. -/
theorem runLegacy_counts {σ : Type} (d : RawDecoderModel σ) (hnf : NoFFFD d) :
    ∀ (chunks : List (List Nat)) (st : σ),
      countFFFDText (runLegacy d st chunks) = errorCount (runLegacy d st chunks) := by
  intro chunks
  induction chunks with
  | nil => intro st; exact legacyFinish_counts d hnf st
  | cons c cs ih =>
    intro st
    have hrun : runLegacy d st (c :: cs) =
        (legacyProcess d st c).2 ++ runLegacy d (legacyProcess d st c).1 cs := rfl
    rw [hrun, countFFFDText_append, errorCount_append,
      legacyProcess_counts d hnf st c, ih (legacyProcess d st c).1]

/-! ## The feed loop realizes the spec's iteration contract -/

/-- Under the engine contract, the feed loop with fuel exceeding the input
    length performs exactly the spec's error/retry iteration. -/
theorem legacy_feed_loop_run {σ : Type} (d : RawDecoderModel σ)
    (hwf : WFEngine d) :
    ∀ (fuel : Nat) (st : σ) (t : List Nat), t.length < fuel →
      LegacyRun d st t (legacyFeedAux d fuel st t [] []).2.1
        (legacyFeedAux d fuel st t [] []).2.2
        (legacyFeedAux d fuel st t [] []).1 := by
  intro fuel
  induction fuel with
  | zero => intro st t h; omega
  | succ fuel ih =>
    intro st t hlen
    cases hfeed : d.rawFeed st t with
    | mk st' rest =>
      cases rest with
      | mk o oerr =>
        cases oerr with
        | none =>
          have : legacyFeedAux d (fuel + 1) st t [] [] = (st', [] ++ o, []) := by
            simp [legacyFeedAux, hfeed]
          rw [this]
          simpa using LegacyRun.done hfeed
        | some pr =>
          cases pr with
          | mk cause k =>
            obtain ⟨hk1, hk2⟩ := hwf st t st' o cause k hfeed
            have hstep : legacyFeedAux d (fuel + 1) st t [] [] =
                ((legacyFeedAux d fuel st' (t.drop k) [] []).1,
                 (o ++ [0xFFFD]) ++ (legacyFeedAux d fuel st' (t.drop k) [] []).2.1,
                 [cause] ++ (legacyFeedAux d fuel st' (t.drop k) [] []).2.2) := by
              simp only [legacyFeedAux, hfeed]
              rw [legacyFeedAux_norm d fuel st' (t.drop k) ([] ++ o ++ [0xFFFD])
                ([] ++ [cause])]
              simp
            rw [hstep]
            have hrec := ih st' (t.drop k)
              (by simp only [List.length_drop]; omega)
            have := LegacyRun.step hfeed hk1 hrec
            simpa [List.append_assoc] using this

/-! ## Facts about the concrete witness engine -/

theorem takeWhileLenLe (p : Nat → Bool) :
    ∀ l : List Nat, (l.takeWhile p).length ≤ l.length := by
  intro l
  induction l with
  | nil => simp [List.takeWhile]
  | cons b rest ih =>
    simp only [List.takeWhile]
    cases p b <;> simp <;> omega

theorem memTakeWhile (p : Nat → Bool) :
    ∀ (l : List Nat) (a : Nat), a ∈ l.takeWhile p → p a = true := by
  intro l
  induction l with
  | nil => intro a h; simp [List.takeWhile] at h
  | cons b rest ih =>
    intro a h
    simp only [List.takeWhile] at h
    cases hb : p b with
    | false => rw [hb] at h; simp at h
    | true =>
      rw [hb] at h
      simp at h
      rcases h with rfl | h
      · exact hb
      · exact ih a h

theorem asciiEngine_wf : WFEngine asciiEngine := by
  intro st t st' o cause k hfeed
  have hle := takeWhileLenLe (fun b => decide (b < 0x80)) t
  by_cases hgood : (t.takeWhile (fun b => decide (b < 0x80))).length = t.length
  · exfalso
    simp only [asciiEngine, if_pos hgood] at hfeed
    injection hfeed with h1 h23
    injection h23 with h2 h3
    exact Option.noConfusion h3
  · simp only [asciiEngine, if_neg hgood] at hfeed
    injection hfeed with h1 h23
    injection h23 with h2 h3
    injection h3 with h4
    injection h4 with hcause hk
    omega

theorem asciiEngine_nofffd : NoFFFD asciiEngine := by
  constructor
  · intro st t
    have hmem : (0xFFFD : Nat) ∉ t.takeWhile (fun b => decide (b < 0x80)) := by
      intro hm
      have := memTakeWhile _ t _ hm
      simp at this
    by_cases hgood : (t.takeWhile (fun b => decide (b < 0x80))).length = t.length
    · simp only [asciiEngine, if_pos hgood]
      exact List.count_eq_zero.mpr hmem
    · simp only [asciiEngine, if_neg hgood]
      exact List.count_eq_zero.mpr hmem
  · intro st
    simp [asciiEngine]

/-! ## Delegation of the UTF-8 path of LossyDecoder -/

/-- A `LossyDecoder` sitting on its UTF-8 variant behaves, call by call,
    exactly like the underlying `Utf8LossyDecoder`. -/
theorem lossyRunState_utf8 {σ : Type} :
    ∀ (calls : List SinkCall) (carry : List Nat),
      lossyRunState (σ := σ) (LossyInner.utf8 carry) calls =
        ((utf8CallsState carry calls).1,
         LossyInner.utf8 (utf8CallsState carry calls).2) := by
  intro calls
  induction calls with
  | nil => intro carry; rfl
  | cons call rest ih =>
    intro carry
    cases call with
    | process c =>
      have h1 : lossyRunState (σ := σ) (LossyInner.utf8 carry)
          (SinkCall.process c :: rest) =
          ((Utf8LossyDecoder.process carry c).1 ++
             (lossyRunState (σ := σ)
               (LossyInner.utf8 (Utf8LossyDecoder.process carry c).2) rest).1,
           (lossyRunState (σ := σ)
             (LossyInner.utf8 (Utf8LossyDecoder.process carry c).2) rest).2) := rfl
      have h2 : utf8CallsState carry (SinkCall.process c :: rest) =
          ((Utf8LossyDecoder.process carry c).1 ++
             (utf8CallsState (Utf8LossyDecoder.process carry c).2 rest).1,
           (utf8CallsState (Utf8LossyDecoder.process carry c).2 rest).2) := rfl
      rw [h1, h2, ih]
    | error m =>
      have h1 : lossyRunState (σ := σ) (LossyInner.utf8 carry)
          (SinkCall.error m :: rest) =
          (Event.error m :: (lossyRunState (σ := σ) (LossyInner.utf8 carry) rest).1,
           (lossyRunState (σ := σ) (LossyInner.utf8 carry) rest).2) := rfl
      have h2 : utf8CallsState carry (SinkCall.error m :: rest) =
          (Event.error m :: (utf8CallsState carry rest).1,
           (utf8CallsState carry rest).2) := rfl
      rw [h1, h2, ih]

/-! ## Soundness of the scanner: reported valid runs are well-formed -/

theorem width_one_bounds {b : Nat} (h : utf8ByteWidth b = 1) : b < 0x80 := by
  unfold utf8ByteWidth at h
  split_ifs at h <;> omega

theorem width_two_bounds {b : Nat} (h : utf8ByteWidth b = 2) :
    0xC2 ≤ b ∧ b < 0xE0 := by
  unfold utf8ByteWidth at h
  split_ifs at h <;> omega

theorem width_three_bounds {b : Nat} (h : utf8ByteWidth b = 3) :
    0xE0 ≤ b ∧ b < 0xF0 := by
  unfold utf8ByteWidth at h
  split_ifs at h <;> omega

theorem width_four_bounds {b : Nat} (h : utf8ByteWidth b = 4) :
    0xF0 ≤ b ∧ b < 0xF5 := by
  unfold utf8ByteWidth at h
  split_ifs at h <;> omega

theorem width_cases (b : Nat) :
    utf8ByteWidth b = 0 ∨ utf8ByteWidth b = 1 ∨ utf8ByteWidth b = 2 ∨
      utf8ByteWidth b = 3 ∨ utf8ByteWidth b = 4 := by
  unfold utf8ByteWidth
  split_ifs <;> simp

theorem sound_two {b1 b2 : Nat} (hw : utf8ByteWidth b1 = 2)
    (hc : contOk b1 1 b2 = true) :
    ∃ c, ValidScalar c ∧ encodeChar c = [b1, b2] := by
  obtain ⟨hb1, hb2⟩ := width_two_bounds hw
  unfold contOk at hc
  rw [if_pos rfl, if_neg (by omega), if_neg (by omega), if_neg (by omega),
    if_neg (by omega)] at hc
  simp only [decide_eq_true_eq] at hc
  refine ⟨(b1 - 0xC0) * 0x40 + (b2 - 0x80), ⟨by omega, by omega⟩, ?_⟩
  rw [encodeChar_two (by omega) (by omega)]
  simp only [List.cons.injEq, and_true]
  constructor <;> omega

theorem sound_three {b1 b2 b3 : Nat} (hw : utf8ByteWidth b1 = 3)
    (hc1 : contOk b1 1 b2 = true) (hc2 : 0x80 ≤ b3 ∧ b3 < 0xC0) :
    ∃ c, ValidScalar c ∧ encodeChar c = [b1, b2, b3] := by
  obtain ⟨hb1, hb2⟩ := width_three_bounds hw
  unfold contOk at hc1
  rw [if_pos rfl] at hc1
  refine ⟨(b1 - 0xE0) * 0x1000 + (b2 - 0x80) * 0x40 + (b3 - 0x80), ?_, ?_⟩
  · by_cases hE0 : b1 = 0xE0
    · rw [if_pos hE0] at hc1
      simp only [decide_eq_true_eq] at hc1
      constructor
      · omega
      · subst hE0; omega
    · rw [if_neg hE0] at hc1
      by_cases hED : b1 = 0xED
      · rw [if_pos hED] at hc1
        simp only [decide_eq_true_eq] at hc1
        constructor
        · omega
        · subst hED; omega
      · rw [if_neg hED, if_neg (by omega), if_neg (by omega)] at hc1
        simp only [decide_eq_true_eq] at hc1
        constructor
        · omega
        · omega
  · have hb2r : 0x80 ≤ b2 ∧ b2 < 0xC0 := by
      by_cases hE0 : b1 = 0xE0
      · rw [if_pos hE0] at hc1; simp only [decide_eq_true_eq] at hc1; omega
      · rw [if_neg hE0] at hc1
        by_cases hED : b1 = 0xED
        · rw [if_pos hED] at hc1; simp only [decide_eq_true_eq] at hc1; omega
        · rw [if_neg hED, if_neg (by omega), if_neg (by omega)] at hc1
          simp only [decide_eq_true_eq] at hc1; omega
    have hge : 0x800 ≤ (b1 - 0xE0) * 0x1000 + (b2 - 0x80) * 0x40 + (b3 - 0x80) := by
      by_cases hE0 : b1 = 0xE0
      · rw [if_pos hE0] at hc1
        simp only [decide_eq_true_eq] at hc1
        subst hE0
        omega
      · omega
    rw [encodeChar_three hge (by omega)]
    simp only [List.cons.injEq, and_true]
    refine ⟨by omega, by omega, by omega⟩

theorem sound_four {b1 b2 b3 b4 : Nat} (hw : utf8ByteWidth b1 = 4)
    (hc1 : contOk b1 1 b2 = true) (hc2 : 0x80 ≤ b3 ∧ b3 < 0xC0)
    (hc3 : 0x80 ≤ b4 ∧ b4 < 0xC0) :
    ∃ c, ValidScalar c ∧ encodeChar c = [b1, b2, b3, b4] := by
  obtain ⟨hb1, hb2⟩ := width_four_bounds hw
  unfold contOk at hc1
  rw [if_pos rfl, if_neg (by omega), if_neg (by omega)] at hc1
  have hb2r : (b1 = 0xF0 → 0x90 ≤ b2 ∧ b2 < 0xC0) ∧
      (b1 = 0xF4 → 0x80 ≤ b2 ∧ b2 < 0x90) ∧
      (b1 ≠ 0xF0 → b1 ≠ 0xF4 → 0x80 ≤ b2 ∧ b2 < 0xC0) := by
    by_cases hF0 : b1 = 0xF0
    · rw [if_pos hF0] at hc1
      simp only [decide_eq_true_eq] at hc1
      exact ⟨fun _ => hc1, fun h => by omega, fun h _ => absurd hF0 h⟩
    · rw [if_neg hF0] at hc1
      by_cases hF4 : b1 = 0xF4
      · rw [if_pos hF4] at hc1
        simp only [decide_eq_true_eq] at hc1
        exact ⟨fun h => absurd h hF0, fun _ => hc1, fun _ h => absurd hF4 h⟩
      · rw [if_neg hF4] at hc1
        simp only [decide_eq_true_eq] at hc1
        exact ⟨fun h => absurd h hF0, fun h => absurd h hF4, fun _ _ => hc1⟩
  refine ⟨(b1 - 0xF0) * 0x40000 + (b2 - 0x80) * 0x1000 + (b3 - 0x80) * 0x40 +
    (b4 - 0x80), ?_, ?_⟩
  · constructor
    · by_cases hF4 : b1 = 0xF4
      · have := hb2r.2.1 hF4
        subst hF4
        omega
      · omega
    · omega
  · have hge : 0x10000 ≤ (b1 - 0xF0) * 0x40000 + (b2 - 0x80) * 0x1000 +
        (b3 - 0x80) * 0x40 + (b4 - 0x80) := by
      by_cases hF0 : b1 = 0xF0
      · have := hb2r.1 hF0
        subst hF0
        omega
      · have h2r : 0x80 ≤ b2 ∧ b2 < 0xC0 := by
          by_cases hF4 : b1 = 0xF4
          · have := hb2r.2.1 hF4; omega
          · exact hb2r.2.2 hF0 hF4
        omega
    have h2r : 0x80 ≤ b2 ∧ b2 < 0xC0 := by
      by_cases hF0 : b1 = 0xF0
      · have := hb2r.1 hF0; omega
      · by_cases hF4 : b1 = 0xF4
        · have := hb2r.2.1 hF4; omega
        · exact hb2r.2.2 hF0 hF4
    rw [encodeChar_four hge]
    simp only [List.cons.injEq, and_true]
    refine ⟨by omega, by omega, by omega, by omega⟩

/-- The starting offset of a scan is a pure shift of its results. -/
theorem scanFrom_shift :
    ∀ (l seq : List Nat) (vl e : Nat),
      scanFrom (vl + e) seq l =
        match scanFrom vl seq l with
        | ScanResult.ok a => ScanResult.ok (a + e)
        | ScanResult.incomplete a s => ScanResult.incomplete (a + e) s
        | ScanResult.error a f => ScanResult.error (a + e) (f + e) := by
  intro l
  induction l with
  | nil =>
    intro seq vl e
    cases seq <;> simp [scanFrom]
  | cons b rest ih =>
    intro seq vl e
    cases seq with
    | nil =>
      simp only [scanFrom]
      by_cases h1 : utf8ByteWidth b = 1
      · rw [if_pos h1, if_pos h1]
        have heq : vl + e + 1 = vl + 1 + e := by omega
        rw [heq, ih [] (vl + 1) e]
      · rw [if_neg h1, if_neg h1]
        by_cases h0 : utf8ByteWidth b = 0
        · rw [if_pos h0, if_pos h0]
        · rw [if_neg h0, if_neg h0]
          exact ih [b] vl e
    | cons lead s =>
      simp only [scanFrom, List.length_cons]
      by_cases hc : contOk lead (s.length + 1) b
      · rw [if_pos hc, if_pos hc]
        by_cases hfull : s.length + 1 + 1 = utf8ByteWidth lead
        · rw [if_pos hfull, if_pos hfull]
          have heq : vl + e + (s.length + 1) + 1 = vl + (s.length + 1) + 1 + e := by
            omega
          rw [heq, ih [] (vl + (s.length + 1) + 1) e]
        · rw [if_neg hfull, if_neg hfull]
          exact ih (lead :: s ++ [b]) vl e
      · rw [if_neg hc, if_neg hc]
        show ScanResult.error (vl + e) (vl + e + (s.length + 1) - 1) =
          ScanResult.error (vl + e) (vl + (s.length + 1) - 1 + e)
        congr 1
        omega

/-- Soundness of the scanner: the valid run it reports never exceeds the
    input and is always the encoding of a sequence of Unicode scalar
    values. -/
theorem scan_sound :
    ∀ (n : Nat) (input : List Nat), input.length ≤ n →
      scanValidLen (scanValid input) ≤ input.length ∧
      ∃ cps, AllValid cps ∧
        input.take (scanValidLen (scanValid input)) = encodeUtf8 cps := by
  intro n
  induction n with
  | zero =>
    intro input hlen
    have : input = [] := List.length_eq_zero.mp (by omega)
    subst this
    exact ⟨by simp [scanValid_nil, scanValidLen], [], by simp [AllValid],
      by simp [scanValid_nil, scanValidLen, encodeUtf8_nil]⟩
  | succ n ih =>
    intro input hlen
    cases input with
    | nil =>
      exact ⟨by simp [scanValid_nil, scanValidLen], [], by simp [AllValid],
        by simp [scanValid_nil, scanValidLen, encodeUtf8_nil]⟩
    | cons b rest =>
      rcases width_cases b with h0 | h1 | h2 | h3 | h4
      · -- invalid lead: error at offset 0
        have hv : scanValid (b :: rest) = ScanResult.error 0 0 := by
          simp [scanValid, scanFrom, h0]
        rw [hv]
        exact ⟨by simp [scanValidLen], [], by simp [AllValid],
          by simp [scanValidLen, encodeUtf8_nil]⟩
      · -- ASCII byte
        have hb : b < 0x80 := width_one_bounds h1
        have hv : scanValid (b :: rest) = scanFrom (0 + 1) [] rest := by
          simp [scanValid, scanFrom, h1]
        obtain ⟨ihle, cps, hcv, htake⟩ := ih rest (by simp at hlen; omega)
        have hcps : AllValid (b :: cps) := by
          intro x hx
          simp only [List.mem_cons] at hx
          rcases hx with rfl | hx
          · exact ⟨by omega, by omega⟩
          · exact hcv x hx
        rw [hv, scanFrom_shift rest [] 0 1,
                      show scanFrom 0 [] rest = scanValid rest from rfl]
        cases hscan : scanValid rest with
        | ok a =>
          rw [hscan] at htake ihle
          simp only [scanValidLen] at htake ihle ⊢
          refine ⟨by simp; omega, b :: cps, hcps, ?_⟩
          rw [encodeUtf8_cons, encodeChar_one hb]
          simp [htake]
        | incomplete a sq =>
          rw [hscan] at htake ihle
          simp only [scanValidLen] at htake ihle ⊢
          refine ⟨by simp; omega, b :: cps, hcps, ?_⟩
          rw [encodeUtf8_cons, encodeChar_one hb]
          simp [htake]
        | error a f =>
          rw [hscan] at htake ihle
          simp only [scanValidLen] at htake ihle ⊢
          refine ⟨by simp; omega, b :: cps, hcps, ?_⟩
          rw [encodeUtf8_cons, encodeChar_one hb]
          simp [htake]
      · -- two-byte lead
        cases rest with
        | nil =>
          have hv : scanValid [b] = ScanResult.incomplete 0 [b] := by
            simp [scanValid, scanFrom, h2]
          rw [hv]
          exact ⟨by simp [scanValidLen], [], by simp [AllValid],
            by simp [scanValidLen, encodeUtf8_nil]⟩
        | cons b2 r2 =>
          cases hc : contOk b 1 b2 with
          | false =>
            have hv : scanValid (b :: b2 :: r2) = ScanResult.error 0 0 := by
              simp [scanValid, scanFrom, h2, hc]
            rw [hv]
            exact ⟨by simp [scanValidLen], [], by simp [AllValid],
              by simp [scanValidLen, encodeUtf8_nil]⟩
          | true =>
            have hv : scanValid (b :: b2 :: r2) = scanFrom (0 + 2) [] r2 := by
              simp [scanValid, scanFrom, h2, hc]
            obtain ⟨c, hvc, hec⟩ := sound_two h2 hc
            obtain ⟨ihle, cps, hcv, htake⟩ := ih r2 (by simp at hlen; omega)
            have hcps : AllValid (c :: cps) := by
              intro x hx
              simp only [List.mem_cons] at hx
              rcases hx with rfl | hx
              · exact hvc
              · exact hcv x hx
            rw [hv, scanFrom_shift r2 [] 0 2,
                      show scanFrom 0 [] r2 = scanValid r2 from rfl]
            cases hscan : scanValid r2 with
            | ok a =>
              rw [hscan] at htake ihle
              simp only [scanValidLen] at htake ihle ⊢
              refine ⟨by simp; omega, c :: cps, hcps, ?_⟩
              rw [encodeUtf8_cons, hec]
              simp [htake]
            | incomplete a sq =>
              rw [hscan] at htake ihle
              simp only [scanValidLen] at htake ihle ⊢
              refine ⟨by simp; omega, c :: cps, hcps, ?_⟩
              rw [encodeUtf8_cons, hec]
              simp [htake]
            | error a f =>
              rw [hscan] at htake ihle
              simp only [scanValidLen] at htake ihle ⊢
              refine ⟨by simp; omega, c :: cps, hcps, ?_⟩
              rw [encodeUtf8_cons, hec]
              simp [htake]
      · -- three-byte lead
        cases rest with
        | nil =>
          have hv : scanValid [b] = ScanResult.incomplete 0 [b] := by
            simp [scanValid, scanFrom, h3]
          rw [hv]
          exact ⟨by simp [scanValidLen], [], by simp [AllValid],
            by simp [scanValidLen, encodeUtf8_nil]⟩
        | cons b2 r2 =>
          cases hc : contOk b 1 b2 with
          | false =>
            have hv : scanValid (b :: b2 :: r2) = ScanResult.error 0 0 := by
              simp [scanValid, scanFrom, h3, hc]
            rw [hv]
            exact ⟨by simp [scanValidLen], [], by simp [AllValid],
              by simp [scanValidLen, encodeUtf8_nil]⟩
          | true =>
            cases r2 with
            | nil =>
              have hv : scanValid [b, b2] = ScanResult.incomplete 0 [b, b2] := by
                simp [scanValid, scanFrom, h3, hc]
              rw [hv]
              exact ⟨by simp [scanValidLen], [], by simp [AllValid],
                by simp [scanValidLen, encodeUtf8_nil]⟩
            | cons b3 r3 =>
              by_cases hc2 : 0x80 ≤ b3 ∧ b3 < 0xC0
              · have hcb : contOk b 2 b3 = true :=
                  contOk_later_true (by omega) hc2.1 hc2.2
                have hv : scanValid (b :: b2 :: b3 :: r3) =
                    scanFrom (0 + 3) [] r3 := by
                  simp [scanValid, scanFrom, h3, hc, hcb]
                obtain ⟨c, hvc, hec⟩ := sound_three h3 hc hc2
                obtain ⟨ihle, cps, hcv, htake⟩ := ih r3 (by simp at hlen; omega)
                have hcps : AllValid (c :: cps) := by
                  intro x hx
                  simp only [List.mem_cons] at hx
                  rcases hx with rfl | hx
                  · exact hvc
                  · exact hcv x hx
                rw [hv, scanFrom_shift r3 [] 0 3,
                      show scanFrom 0 [] r3 = scanValid r3 from rfl]
                cases hscan : scanValid r3 with
                | ok a =>
                  rw [hscan] at htake ihle
                  simp only [scanValidLen] at htake ihle ⊢
                  refine ⟨by simp; omega, c :: cps, hcps, ?_⟩
                  rw [encodeUtf8_cons, hec]
                  simp [htake]
                | incomplete a sq =>
                  rw [hscan] at htake ihle
                  simp only [scanValidLen] at htake ihle ⊢
                  refine ⟨by simp; omega, c :: cps, hcps, ?_⟩
                  rw [encodeUtf8_cons, hec]
                  simp [htake]
                | error a f =>
                  rw [hscan] at htake ihle
                  simp only [scanValidLen] at htake ihle ⊢
                  refine ⟨by simp; omega, c :: cps, hcps, ?_⟩
                  rw [encodeUtf8_cons, hec]
                  simp [htake]
              · have hcb : contOk b 2 b3 = false := by
                  rw [contOk_later (by omega)]
                  simpa using hc2
                have hv : scanValid (b :: b2 :: b3 :: r3) =
                    ScanResult.error 0 1 := by
                  simp [scanValid, scanFrom, h3, hc, hcb]
                rw [hv]
                exact ⟨by simp [scanValidLen], [], by simp [AllValid],
                  by simp [scanValidLen, encodeUtf8_nil]⟩
      · -- four-byte lead
        cases rest with
        | nil =>
          have hv : scanValid [b] = ScanResult.incomplete 0 [b] := by
            simp [scanValid, scanFrom, h4]
          rw [hv]
          exact ⟨by simp [scanValidLen], [], by simp [AllValid],
            by simp [scanValidLen, encodeUtf8_nil]⟩
        | cons b2 r2 =>
          cases hc : contOk b 1 b2 with
          | false =>
            have hv : scanValid (b :: b2 :: r2) = ScanResult.error 0 0 := by
              simp [scanValid, scanFrom, h4, hc]
            rw [hv]
            exact ⟨by simp [scanValidLen], [], by simp [AllValid],
              by simp [scanValidLen, encodeUtf8_nil]⟩
          | true =>
            cases r2 with
            | nil =>
              have hv : scanValid [b, b2] = ScanResult.incomplete 0 [b, b2] := by
                simp [scanValid, scanFrom, h4, hc]
              rw [hv]
              exact ⟨by simp [scanValidLen], [], by simp [AllValid],
                by simp [scanValidLen, encodeUtf8_nil]⟩
            | cons b3 r3 =>
              by_cases hc2 : 0x80 ≤ b3 ∧ b3 < 0xC0
              · have hcb : contOk b 2 b3 = true :=
                  contOk_later_true (by omega) hc2.1 hc2.2
                cases r3 with
                | nil =>
                  have hv : scanValid [b, b2, b3] =
                      ScanResult.incomplete 0 [b, b2, b3] := by
                    simp [scanValid, scanFrom, h4, hc, hcb]
                  rw [hv]
                  exact ⟨by simp [scanValidLen], [], by simp [AllValid],
                    by simp [scanValidLen, encodeUtf8_nil]⟩
                | cons b4 r4 =>
                  by_cases hc3 : 0x80 ≤ b4 ∧ b4 < 0xC0
                  · have hcb3 : contOk b 3 b4 = true :=
                      contOk_later_true (by omega) hc3.1 hc3.2
                    have hv : scanValid (b :: b2 :: b3 :: b4 :: r4) =
                        scanFrom (0 + 4) [] r4 := by
                      simp [scanValid, scanFrom, h4, hc, hcb, hcb3]
                    obtain ⟨c, hvc, hec⟩ := sound_four h4 hc hc2 hc3
                    obtain ⟨ihle, cps, hcv, htake⟩ :=
                      ih r4 (by simp at hlen; omega)
                    have hcps : AllValid (c :: cps) := by
                      intro x hx
                      simp only [List.mem_cons] at hx
                      rcases hx with rfl | hx
                      · exact hvc
                      · exact hcv x hx
                    rw [hv, scanFrom_shift r4 [] 0 4,
                      show scanFrom 0 [] r4 = scanValid r4 from rfl]
                    cases hscan : scanValid r4 with
                    | ok a =>
                      rw [hscan] at htake ihle
                      simp only [scanValidLen] at htake ihle ⊢
                      refine ⟨by simp; omega, c :: cps, hcps, ?_⟩
                      rw [encodeUtf8_cons, hec]
                      simp [htake]
                    | incomplete a sq =>
                      rw [hscan] at htake ihle
                      simp only [scanValidLen] at htake ihle ⊢
                      refine ⟨by simp; omega, c :: cps, hcps, ?_⟩
                      rw [encodeUtf8_cons, hec]
                      simp [htake]
                    | error a f =>
                      rw [hscan] at htake ihle
                      simp only [scanValidLen] at htake ihle ⊢
                      refine ⟨by simp; omega, c :: cps, hcps, ?_⟩
                      rw [encodeUtf8_cons, hec]
                      simp [htake]
                  · have hcb3 : contOk b 3 b4 = false := by
                      rw [contOk_later (by omega)]
                      simpa using hc3
                    have hv : scanValid (b :: b2 :: b3 :: b4 :: r4) =
                        ScanResult.error 0 2 := by
                      simp [scanValid, scanFrom, h4, hc, hcb, hcb3]
                    rw [hv]
                    exact ⟨by simp [scanValidLen], [], by simp [AllValid],
                      by simp [scanValidLen, encodeUtf8_nil]⟩
              · have hcb : contOk b 2 b3 = false := by
                  rw [contOk_later (by omega)]
                  simpa using hc2
                have hv : scanValid (b :: b2 :: b3 :: r3) =
                    ScanResult.error 0 1 := by
                  simp [scanValid, scanFrom, h4, hc, hcb]
                rw [hv]
                exact ⟨by simp [scanValidLen], [], by simp [AllValid],
                  by simp [scanValidLen, encodeUtf8_nil]⟩

/-! ## Claim theorems -/

/-- C2 counterexample: the claim's count equality fails as stated.  The
    single chunk `EF BF BD` is the valid UTF-8 encoding of U+FFFD itself, so
    the decoder pushes one replacement-character text chunk while making zero
    error calls. -/
theorem error_replacement_count_counterexample :
    ¬(errorCount (runUtf8 [[0xEF, 0xBF, 0xBD]]) =
        replacementChunkCount (runUtf8 [[0xEF, 0xBF, 0xBD]])) := by
  decide

/-- C2 (amended): on the UTF-8 path every error call is immediately followed
    by exactly one replacement-character text-chunk push, and over any whole
    run the number of error calls equals the number of replacement chunks
    pushed immediately after an error; on the legacy path, provided the
    engine itself never emits U+FFFD, the total number of U+FFFD characters
    in pushed text equals the number of error calls over any whole run. -/
theorem error_replacement_adjacency :
    (∀ chunks : List (List Nat), errFollowed (runUtf8 chunks) = true ∧
      adjacentReplCount (runUtf8 chunks) = errorCount (runUtf8 chunks)) ∧
    (∀ (σ : Type) (d : RawDecoderModel σ), NoFFFD d →
      ∀ (st : σ) (chunks : List (List Nat)),
        countFFFDText (runLegacy d st chunks) =
          errorCount (runLegacy d st chunks)) := by
  constructor
  · intro chunks
    obtain ⟨hf, _⟩ := runUtf8_shape chunks
    exact ⟨hf, adjacentReplCount_eq_errorCount _ hf⟩
  · intro σ d hnf st chunks
    exact runLegacy_counts d hnf chunks st

/-- Witness for the amended C2 at concrete inputs on both paths. -/
theorem error_replacement_adjacency_witness :
    (errFollowed (runUtf8 [[0x61, 0xFF]]) = true ∧
      adjacentReplCount (runUtf8 [[0x61, 0xFF]]) =
        errorCount (runUtf8 [[0x61, 0xFF]])) ∧
    countFFFDText (runLegacy asciiEngine () [[0x61, 0xC0]]) =
      errorCount (runLegacy asciiEngine () [[0x61, 0xC0]]) :=
  ⟨error_replacement_adjacency.1 [[0x61, 0xFF]],
   error_replacement_adjacency.2 Unit asciiEngine asciiEngine_nofffd ()
     [[0x61, 0xC0]]⟩

/-- C3: whenever the scanner reports an error during `process`, the decoder
    emits `error` with exactly the message "invalid byte sequence", then
    pushes exactly one text chunk holding the single replacement character,
    and then continues decoding the remaining input after the invalid
    sequence within the same `process` call. -/
theorem utf8_error_message_and_resume :
    (∀ carry chunk : List Nat,
      allErrMsg "invalid byte sequence"
          (Utf8LossyDecoder.process carry chunk).1 = true ∧
        errFollowed (Utf8LossyDecoder.process carry chunk).1 = true) ∧
    (∀ (input : List Nat) (vl d : Nat),
      scanValid input = ScanResult.error vl d →
        runNoCarry input =
          (textEvent (input.take vl) ++
             (Event.error "invalid byte sequence" :: Event.text [0xFFFD] ::
               (runNoCarry (input.drop (d + 1))).1),
           (runNoCarry (input.drop (d + 1))).2)) := by
  constructor
  · intro carry chunk
    obtain ⟨hf, _, hm, _⟩ := process_shape carry chunk
    exact ⟨hm, hf⟩
  · intro input vl d h
    exact runNoCarry_error h

/-- Witness for C3 at the chunk `FF 61` (invalid byte, then ASCII). -/
theorem utf8_error_message_and_resume_witness :
    (allErrMsg "invalid byte sequence"
        (Utf8LossyDecoder.process [] [0xFF, 0x61]).1 = true ∧
      errFollowed (Utf8LossyDecoder.process [] [0xFF, 0x61]).1 = true) ∧
    runNoCarry [0xFF, 0x61] =
      (textEvent ([0xFF, 0x61].take 0) ++
         (Event.error "invalid byte sequence" :: Event.text [0xFFFD] ::
           (runNoCarry ([0xFF, 0x61].drop (0 + 1))).1),
       (runNoCarry ([0xFF, 0x61].drop (0 + 1))).2) :=
  ⟨utf8_error_message_and_resume.1 [] [0xFF, 0x61],
   utf8_error_message_and_resume.2 [0xFF, 0x61] 0 0 (by decide)⟩

/-- C4: `finish` on a non-empty carry emits exactly
    `error("incomplete byte sequence at end of stream")`, pushes one
    replacement-character chunk, and forwards `finish` to the consumer sink;
    feeding `EA 99` and finishing yields exactly one replacement character
    and one error, not two. -/
theorem finish_incomplete_sequence :
    (∀ carry : List Nat, carry ≠ [] →
      Utf8LossyDecoder.finish carry =
        [Event.error "incomplete byte sequence at end of stream",
         Event.text [0xFFFD], Event.finished]) ∧
    runUtf8 [[0xEA, 0x99]] =
      [Event.error "incomplete byte sequence at end of stream",
       Event.text [0xFFFD], Event.finished] ∧
    errorCount (runUtf8 [[0xEA, 0x99]]) = 1 ∧
    replacementChunkCount (runUtf8 [[0xEA, 0x99]]) = 1 := by
  refine ⟨?_, by decide, by decide, by decide⟩
  intro carry h
  simp [Utf8LossyDecoder.finish, List.isEmpty_iff, h]

/-- Witness for C4's first conjunct at the concrete carry `EA 99`. -/
theorem finish_incomplete_sequence_witness :
    Utf8LossyDecoder.finish [0xEA, 0x99] =
      [Event.error "incomplete byte sequence at end of stream",
       Event.text [0xFFFD], Event.finished] :=
  finish_incomplete_sequence.1 [0xEA, 0x99] (by decide)

/-- C5: a `LossyDecoder` constructed with an encoding named "utf-8" is
    observationally equivalent to a `Utf8LossyDecoder` over the same sink:
    for every sequence of `process` and `error` calls followed by `finish`,
    the consumer sink receives exactly the same trace of calls. -/
theorem lossy_utf8_transparent {σ : Type} (enc : EncodingModel σ)
    (h : enc.name = "utf-8") (calls : List SinkCall) :
    runLossyCalls enc calls = runUtf8Calls calls := by
  have hnew : LossyDecoder.new enc = LossyInner.utf8 [] := by
    unfold LossyDecoder.new
    rw [if_pos h]
  have hrun : runLossyCalls enc calls =
      (lossyRunState (LossyDecoder.new enc) calls).1 ++
        LossyDecoder.finish (lossyRunState (LossyDecoder.new enc) calls).2 := rfl
  rw [hrun, hnew, lossyRunState_utf8]
  rfl

/-- Witness for C5 at a concrete UTF-8 encoding and call sequence. -/
theorem lossy_utf8_transparent_witness :
    runLossyCalls ⟨"utf-8", asciiEngine, ()⟩
        [SinkCall.process [0x61, 0xC5], SinkCall.error "boo",
         SinkCall.process [0x91]] =
      runUtf8Calls
        [SinkCall.process [0x61, 0xC5], SinkCall.error "boo",
         SinkCall.process [0x91]] :=
  lossy_utf8_transparent ⟨"utf-8", asciiEngine, ()⟩ rfl
    [SinkCall.process [0x61, 0xC5], SinkCall.error "boo",
     SinkCall.process [0x91]]

/-- C6: on the non-UTF-8 path each `LossyDecoder::process` call pushes at
    most one text chunk downstream; the accumulated buffer, including all
    replacement characters from every internal error/retry iteration, is
    pushed once after the feed loop and only if non-empty (so it is the last
    event and never empty). -/
theorem lossy_process_single_push {σ : Type} (d : RawDecoderModel σ)
    (st : σ) (t : List Nat) :
    textChunkCount (LossyDecoder.process (LossyInner.other d st) t).1 ≤ 1 ∧
    textLast (LossyDecoder.process (LossyInner.other d st) t).1 = true ∧
    noEmptyText (LossyDecoder.process (LossyInner.other d st) t).1 = true := by
  have h : (LossyDecoder.process (LossyInner.other d st) t).1 =
      (legacyProcess d st t).2 := rfl
  rw [h]
  exact legacyProcess_shape d st t

/-- C7: on the non-UTF-8 path, the `process` feed loop realizes the spec's
    error/retry contract: each engine error appends exactly one replacement
    character, emits the cause, drops exactly the first `k` reported bytes of
    the remaining input (with `k ≥ 1`), and re-feeds the remainder until the
    engine completes cleanly, so no input byte is lost or duplicated. -/
theorem legacy_error_retry_loop {σ : Type} (d : RawDecoderModel σ)
    (hwf : WFEngine d) (st : σ) (t : List Nat) :
    ∃ st2 out causes,
      legacyFeedAux d (t.length + 1) st t [] [] = (st2, out, causes) ∧
      LegacyRun d st t out causes st2 ∧
      (LossyDecoder.process (LossyInner.other d st) t).1 =
        causes.map Event.error ++
          (if out.isEmpty then [] else [Event.text out]) ∧
      (LossyDecoder.process (LossyInner.other d st) t).2 =
        LossyInner.other d st2 :=
  ⟨(legacyFeedAux d (t.length + 1) st t [] []).1,
   (legacyFeedAux d (t.length + 1) st t [] []).2.1,
   (legacyFeedAux d (t.length + 1) st t [] []).2.2, rfl,
   legacy_feed_loop_run d hwf (t.length + 1) st t (by omega), rfl, rfl⟩

/-- Witness for C7 with the concrete ASCII-like engine on `61 C0 62`. -/
theorem legacy_error_retry_loop_witness :
    ∃ st2 out causes,
      legacyFeedAux asciiEngine ([0x61, 0xC0, 0x62].length + 1) ()
          [0x61, 0xC0, 0x62] [] [] = (st2, out, causes) ∧
      LegacyRun asciiEngine () [0x61, 0xC0, 0x62] out causes st2 ∧
      (LossyDecoder.process (LossyInner.other asciiEngine ())
          [0x61, 0xC0, 0x62]).1 =
        causes.map Event.error ++
          (if out.isEmpty then [] else [Event.text out]) ∧
      (LossyDecoder.process (LossyInner.other asciiEngine ())
          [0x61, 0xC0, 0x62]).2 =
        LossyInner.other asciiEngine st2 :=
  legacy_error_retry_loop asciiEngine asciiEngine_wf () [0x61, 0xC0, 0x62]

/-- C8: feeding the single chunk `78 79 EA FF 99 AE 7A` ("xy" + bad lead cut
    short + FF + two stray continuations + "z") yields the text chunk "xy",
    then four separate error/replacement pairs, then "z": consecutive invalid
    bytes are never merged into one replacement. -/
theorem consecutive_errors_not_merged :
    runUtf8 [[0x78, 0x79, 0xEA, 0xFF, 0x99, 0xAE, 0x7A]] =
      [Event.text [0x78, 0x79],
       Event.error "invalid byte sequence", Event.text [0xFFFD],
       Event.error "invalid byte sequence", Event.text [0xFFFD],
       Event.error "invalid byte sequence", Event.text [0xFFFD],
       Event.error "invalid byte sequence", Event.text [0xFFFD],
       Event.text [0x7A], Event.finished] ∧
    errorCount (runUtf8 [[0x78, 0x79, 0xEA, 0xFF, 0x99, 0xAE, 0x7A]]) = 4 ∧
    replacementChunkCount
      (runUtf8 [[0x78, 0x79, 0xEA, 0xFF, 0x99, 0xAE, 0x7A]]) = 4 := by
  decide

/-- C9: the valid run the scanner reports is always an in-bounds front part
    of the current input chunk (so the subtendril extraction cannot go out of
    bounds), and that run is well-formed UTF-8 (the encoding of a sequence of
    Unicode scalar values), so reinterpreting it as text without validation
    is justified and the pushed chunk decodes to exactly those scalars. -/
theorem scanner_valid_run_safe (input : List Nat) :
    scanValidLen (scanValid input) ≤ input.length ∧
    ∃ cps, AllValid cps ∧
      input.take (scanValidLen (scanValid input)) = encodeUtf8 cps ∧
      decodeUtf8Bytes (input.take (scanValidLen (scanValid input))) = cps := by
  obtain ⟨hle, cps, hv, htake⟩ := scan_sound input.length input le_rfl
  exact ⟨hle, cps, hv, htake, by rw [htake]; exact decodeUtf8Bytes_encode hv⟩

/-- C10: over any whole run of either decoder (any encoding, any sequence of
    `process` and pass-through `error` calls, then `finish`), the consumer
    sink never receives an empty text chunk. -/
theorem no_empty_text_chunk {σ : Type} (enc : EncodingModel σ)
    (calls : List SinkCall) :
    noEmptyText (runLossyCalls enc calls) = true := by
  have hproc : ∀ (st : LossyInner σ) (t : List Nat),
      noEmptyText (LossyDecoder.process st t).1 = true := by
    intro st t
    cases st with
    | utf8 carry => exact (process_shape carry t).2.2.2
    | other d s =>
      have h : (LossyDecoder.process (LossyInner.other d s) t).1 =
          (legacyProcess d s t).2 := rfl
      rw [h]
      exact (legacyProcess_shape d s t).2.2
  have hfin : ∀ st : LossyInner σ, noEmptyText (LossyDecoder.finish st) = true := by
    intro st
    cases st with
    | utf8 carry => exact (finish_shape carry).2.2
    | other d s => exact legacyFinish_shape d s
  have key : ∀ (cs : List SinkCall) (st : LossyInner σ),
      noEmptyText (lossyRunState st cs).1 = true := by
    intro cs
    induction cs with
    | nil => intro st; rfl
    | cons call rest ih =>
      intro st
      cases call with
      | process c =>
        have h : (lossyRunState st (SinkCall.process c :: rest)).1 =
            (LossyDecoder.process st c).1 ++
              (lossyRunState (LossyDecoder.process st c).2 rest).1 := rfl
        rw [h, noEmptyText_append, hproc st c,
          ih (LossyDecoder.process st c).2]
        rfl
      | error m =>
        have h : (lossyRunState st (SinkCall.error m :: rest)).1 =
            Event.error m :: (lossyRunState st rest).1 := rfl
        rw [h, noEmptyText_cons_error]
        exact ih st
  have hrun : runLossyCalls enc calls =
      (lossyRunState (LossyDecoder.new enc) calls).1 ++
        LossyDecoder.finish (lossyRunState (LossyDecoder.new enc) calls).2 := rfl
  rw [hrun, noEmptyText_append, key calls (LossyDecoder.new enc),
    hfin (lossyRunState (LossyDecoder.new enc) calls).2]
  rfl
